import Mathlib

/-!
Verification of the diff & similarity engine of the variants-comparer server
(`server/src/index.ts`).

The pure engine functions (`computeLineDiff`, `calculateStringSimilarity`,
`levenshteinDistance`, `calculateSimilarity`, the `/api/suggest-mappings`
candidate generation) are embedded as executable Lean functions.  The two
calls into the external `diff` npm package (`diffLines`, `diffChars`) are not
part of the repository's sources; they are modelled from the specification's
SequenceDiffer contract (shortest-edit-script / LCS alignment over line or
character tokens, with removed runs emitted before added runs).  All other
definitions are direct translations of the TypeScript source.
-/

namespace VC

/-- The `type` tag of a line-diff entry, from the literal union
`'equal' | 'add' | 'remove' | 'modify'` in `computeLineDiff`. -/
inductive DiffType where
  | equal
  | add
  | remove
  | modify
deriving DecidableEq, Repr

/-- One entry of the structured line diff: the object shape
`{ base?: string; variant?: string; type: ... }` built by `computeLineDiff`. -/
structure LineDiffEntry where
  base : Option String
  variant : Option String
  type : DiffType
deriving DecidableEq, Repr

/-- Entry for a line present in both texts (`{ base: line, variant: line, type: 'equal' }`). -/
def mkEqualE (s : String) : LineDiffEntry := ⟨some s, some s, DiffType.equal⟩

/-- Entry for a line only in the base text (`{ base: line, type: 'remove' }`). -/
def mkRemoveE (s : String) : LineDiffEntry := ⟨some s, none, DiffType.remove⟩

/-- Entry for a line only in the variant text (`{ variant: line, type: 'add' }`). -/
def mkAddE (s : String) : LineDiffEntry := ⟨none, some s, DiffType.add⟩

/-- Character-level model of JavaScript `value.split('\n')`: splits a character
list at every newline, keeping empty segments (so a trailing newline produces a
trailing empty segment, exactly as in JS). -/
def splitNl : List Char → List (List Char)
  | [] => [[]]
  | c :: cs =>
    if c = '\n' then [] :: splitNl cs
    else
      match splitNl cs with
      | [] => [[c]]
      | h :: t => (c :: h) :: t

/-- The line list of a text as `computeLineDiff` sees it:
`value.split('\n').filter((line, idx, arr) => idx < arr.length - 1 || line !== '')`,
i.e. split on newlines and drop the last segment exactly when it is empty. -/
def splitTrim (s : String) : List String :=
  let parts := (splitNl s.data).map (fun l => String.mk l)
  if parts.getLast? = some "" then parts.dropLast else parts

/-- Modelled from the spec: inner step of a longest-common-subsequence
computation over line tokens, standing in for the `diff` package's line-level
SequenceDiffer (`diffLines`), which is not part of this repository.
`lcsAux a f` computes the LCS of `a :: as` against its argument, where
`f` computes the LCS of `as` against its argument. -/
def lcsAux (a : String) (f : List String → List String) : List String → List String
  | [] => []
  | b :: bs =>
    if a = b then a :: f bs
    else
      let c1 := f (b :: bs)
      let c2 := lcsAux a f bs
      if c1.length < c2.length then c2 else c1

/-- Modelled from the spec: a longest common subsequence of two line lists,
the deterministic alignment backbone of the shortest-edit-script diff that the
SequenceDiffer contract requires. -/
def lcs : List String → List String → List String
  | [], _ => []
  | a :: as, l2 => lcsAux a (lcs as) l2

/-- Modelled from the spec: flattening of the SequenceDiffer run list into
per-line entries, as the first loop of `computeLineDiff` does (Equal runs to
`equal` entries, Delete runs to `remove` entries, Insert runs to `add`
entries, removed runs emitted before added runs between two equal anchors). -/
def alignDiff : List String → List String → List String → List LineDiffEntry
  | [], A, B => A.map mkRemoveE ++ B.map mkAddE
  | x :: cs, A, B =>
    (A.takeWhile (fun l => decide (l ≠ x))).map mkRemoveE
      ++ (B.takeWhile (fun l => decide (l ≠ x))).map mkAddE
      ++ mkEqualE x
      :: alignDiff cs ((A.dropWhile (fun l => decide (l ≠ x))).tail)
          ((B.dropWhile (fun l => decide (l ≠ x))).tail)

/-- Row `0` of the `levenshteinDistance` matrix: `matrix[0][j] = j`. -/
def levInitRow (n : ℕ) : List ℕ := List.range (n + 1)

/-- One row step of the `levenshteinDistance` dynamic program: given the
previous row (`matrix[i-1]`), the current character `c = str2[i-1]`, and the
entry to the left (`qj1 = matrix[i][j-1]`), produce `matrix[i][1..]` while
walking `str1`.  Mirrors the inner `for (j = 1; j <= str1.length; j++)` loop. -/
def levRowGo (c : Char) : List Char → List ℕ → ℕ → List ℕ
  | [], _, _ => []
  | _ :: _, [], _ => []
  | a :: as, pj1 :: rest, qj1 =>
    let pj := rest.headD 0
    let qj := if c = a then pj1 else Nat.min (Nat.min (pj1 + 1) (qj1 + 1)) (pj + 1)
    qj :: levRowGo c as rest qj

/-- The outer `for (i = 1; i <= str2.length; i++)` loop of
`levenshteinDistance`: successively replaces the row, prepending the first
column value `matrix[i][0] = i`. -/
def levRows (s1 : List Char) : List Char → List ℕ → ℕ → List ℕ
  | [], prev, _ => prev
  | c :: cs, prev, i => levRows s1 cs (i :: levRowGo c s1 prev i) (i + 1)

/-- The final row `matrix[str2.length]` of the `levenshteinDistance` matrix. -/
def levFinalRow (str1 str2 : String) : List ℕ :=
  levRows str1.data str2.data (levInitRow str1.length) 1

/-- `levenshteinDistance(str1, str2)`: classic DP over a
`(str2.length+1) x (str1.length+1)` matrix; the result is
`matrix[str2.length][str1.length]`, the last entry of the final row. -/
def levenshteinDistance (str1 str2 : String) : ℕ :=
  (levFinalRow str1 str2).getLastD 0

/-- `calculateStringSimilarity(str1, str2)`: `1` for identical strings, `0`
when either is empty (JS falsiness of `''`), otherwise
`(longer.length - editDistance) / longer.length` where `longer` is the longer
of the two strings. -/
def calculateStringSimilarity (str1 str2 : String) : ℚ :=
  if str1 = str2 then 1
  else if str1 = "" ∨ str2 = "" then 0
  else
    let longer := if str2.length < str1.length then str1 else str2
    if longer.length = 0 then 1
    else ((longer.length : ℚ) - (levenshteinDistance str1 str2 : ℚ)) / (longer.length : ℚ)

/-- The inner `for (addIdx ...)` scan of `computeLineDiff`'s pairing phase:
fold over the indexed add lines, skipping indices in `usedAddIndices`,
skipping pairs where either string is falsy (`undefined` or `''`), and
keeping the candidate with `similarity > 0.2` that strictly improves on the
best seen so far (so the earliest index wins ties). -/
def findBestMatch (baseOpt : Option String) (adds : List LineDiffEntry)
    (used : List ℕ) : Option (ℕ × ℚ) :=
  adds.enum.foldl
    (fun best p =>
      if p.1 ∈ used then best
      else
        match baseOpt, p.2.variant with
        | some bs, some vs =>
          if bs ≠ "" ∧ vs ≠ "" then
            let sim := calculateStringSimilarity bs vs
            match best with
            | none => if (0.2 : ℚ) < sim then some (p.1, sim) else best
            | some b => if (0.2 : ℚ) < sim ∧ b.2 < sim then some (p.1, sim) else best
          else best
        | _, _ => best)
    none

/-- The `for (const removePair of removeLines)` loop of `computeLineDiff`:
each remove line either becomes a `modify` entry (consuming its best-match add
index) or is kept as a `remove` entry; returns the produced entries together
with the final set of used add indices. -/
def processRemoves (adds : List LineDiffEntry) :
    List LineDiffEntry → List ℕ → List LineDiffEntry × List ℕ
  | [], used => ([], used)
  | r :: rs, used =>
    match findBestMatch r.base adds used with
    | some best =>
      match adds[best.1]? with
      | some a =>
        match r.base, a.variant with
        | some bs, some vs =>
          if bs ≠ "" ∧ vs ≠ "" then
            let rest := processRemoves adds rs (best.1 :: used)
            (⟨some bs, some vs, DiffType.modify⟩ :: rest.1, rest.2)
          else
            let rest := processRemoves adds rs used
            (r :: rest.1, rest.2)
        | _, _ =>
          let rest := processRemoves adds rs used
          (r :: rest.1, rest.2)
      | none =>
        let rest := processRemoves adds rs used
        (r :: rest.1, rest.2)
    | none =>
      let rest := processRemoves adds rs used
      (r :: rest.1, rest.2)

/-- The final loop of a run in `computeLineDiff`
(`for (addIdx ...) if (!usedAddIndices.has(addIdx) ...) processed.push(...)`):
the add entries whose index is not in `usedAddIndices`, in their original
relative order. -/
def unusedOf (adds : List LineDiffEntry) (used : List ℕ) : List LineDiffEntry :=
  (adds.enum.filter (fun q => decide (q.1 ∉ used))).map (fun q => q.2)

/-- Processing of one maximal remove-run/add-run block in `computeLineDiff`:
the per-remove entries followed by the add lines whose index was never
consumed, in their original relative order. -/
def processRun (removes adds : List LineDiffEntry) : List LineDiffEntry :=
  let p := processRemoves adds removes []
  p.1 ++ unusedOf adds p.2

/-- The `while (i < result.length)` post-processing loop of `computeLineDiff`,
with the loop's progress measure made explicit as fuel (each iteration
consumes at least one entry, so `l.length` fuel always suffices):
non-remove entries are emitted unchanged; at a remove entry the maximal run of
consecutive removes and the following run of consecutive adds are collected
and handed to `processRun`. -/
def pairUpGo : ℕ → List LineDiffEntry → List LineDiffEntry
  | 0, l => l
  | _ + 1, [] => []
  | fuel + 1, e :: rest =>
    if e.type = DiffType.remove then
      let removes := (e :: rest).takeWhile (fun x => decide (x.type = DiffType.remove))
      let rest1 := (e :: rest).dropWhile (fun x => decide (x.type = DiffType.remove))
      let adds := rest1.takeWhile (fun x => decide (x.type = DiffType.add))
      let rest2 := rest1.dropWhile (fun x => decide (x.type = DiffType.add))
      (if 0 < removes.length ∧ 0 < adds.length then processRun removes adds else removes)
        ++ pairUpGo fuel rest2
    else e :: pairUpGo fuel rest

/-- The pairing post-process of `computeLineDiff` applied to the flattened
run list. -/
def pairUp (l : List LineDiffEntry) : List LineDiffEntry := pairUpGo l.length l

/-- `computeLineDiff(baseContent, variantContent)`: flatten the line-level
SequenceDiffer output into per-line entries, then pair similar remove/add
lines into `modify` entries. -/
def computeLineDiff (baseContent variantContent : String) : List LineDiffEntry :=
  let baseLs := splitTrim baseContent
  let varLs := splitTrim variantContent
  pairUp (alignDiff (lcs baseLs varLs) baseLs varLs)

/-- Modelled from the spec: inner step of the longest-common-subsequence
length over character tokens; see `lcsLen`. -/
def lcsLenAux (a : Char) (f : List Char → ℕ) : List Char → ℕ
  | [] => 0
  | b :: bs => if a = b then f bs + 1 else max (f (b :: bs)) (lcsLenAux a f bs)

/-- Modelled from the spec: the number of matched characters of the `diff`
package's character-level SequenceDiffer (`diffChars`), which is not part of
this repository.  In any shortest-edit-script character diff the summed length
of the Equal runs equals the length of a longest common subsequence of the two
character sequences, which this computes. -/
def lcsLen : List Char → List Char → ℕ
  | [], _ => 0
  | a :: as, l2 => lcsLenAux a (lcsLen as) l2

/-- JavaScript `Math.round`: round half away from zero for positive arguments,
i.e. `⌊x + 1/2⌋`. -/
def jsRound (q : ℚ) : ℤ := ⌊q + 1 / 2⌋

/-- `calculateSimilarity(content1, content2)`: `100` for identical blobs, `0`
when either is empty, otherwise `Math.round((matchingChars / maxLength) * 100)`
where `matchingChars` sums the Equal runs of the character diff and
`maxLength` is the longer blob's length. -/
def calculateSimilarity (content1 content2 : String) : ℤ :=
  if content1 = content2 then 100
  else if content1 = "" ∨ content2 = "" then 0
  else
    let matchingChars : ℕ := lcsLen content1.data content2.data
    let maxLength : ℕ := max content1.length content2.length
    if 0 < maxLength then jsRound ((matchingChars : ℚ) / (maxLength : ℚ) * 100) else 0

/-- One suggestion of the `/api/suggest-mappings` endpoint:
`{ baseFile, variantFile, variantLabel, similarity }`. -/
structure MappingSuggestion where
  baseFile : String
  variantFile : String
  variantLabel : String
  similarity : ℤ
deriving DecidableEq, Repr

/-- `Map.has` on a file tree represented as an association list of
`relativePath → content` in insertion order. -/
def treeHas (tree : List (String × String)) (p : String) : Bool :=
  tree.any (fun e => decide (e.1 = p))

/-- The suggestion generation of `/api/suggest-mappings` for one variant:
outer loop over the variant's files, inner loop over the base files, keeping
only pairs where the variant path is absent from the base tree, the base path
is absent from the variant tree, and `similarity >= threshold`. -/
def suggestionsForVariant (threshold : ℤ) (baseTree varTree : List (String × String))
    (label : String) : List MappingSuggestion :=
  (varTree.filter (fun vf => !treeHas baseTree vf.1)).flatMap
    (fun vf =>
      (baseTree.filter (fun bf => !treeHas varTree bf.1)).filterMap
        (fun bf =>
          let similarity := calculateSimilarity bf.2 vf.2
          if threshold ≤ similarity then
            some ⟨bf.1, vf.1, label, similarity⟩
          else none))

/-- All suggestions generated by `/api/suggest-mappings` before sorting:
the variants (label and file tree each) are visited in order. -/
def collectSuggestions (threshold : ℤ) (baseTree : List (String × String))
    (variants : List (String × List (String × String))) : List MappingSuggestion :=
  variants.flatMap (fun v => suggestionsForVariant threshold baseTree v.2 v.1)

/-- Stable insertion into a similarity-descending list: an element is placed
after every element of strictly larger similarity and before equal ones that
were generated later, matching the stable ECMAScript
`sort((a, b) => b.similarity - a.similarity)`. -/
def insertBySim (s : MappingSuggestion) : List MappingSuggestion → List MappingSuggestion
  | [] => [s]
  | t :: ts => if s.similarity < t.similarity then t :: insertBySim s ts else s :: t :: ts

/-- Stable sort by similarity descending, modelling the JavaScript
`suggestions.sort((a, b) => b.similarity - a.similarity)` (stable per the
ECMAScript specification). -/
def sortBySimDesc : List MappingSuggestion → List MappingSuggestion
  | [] => []
  | x :: xs => insertBySim x (sortBySimDesc xs)

/-- The ordered suggestion list returned by `/api/suggest-mappings`. -/
def suggestMappings (threshold : ℤ) (baseTree : List (String × String))
    (variants : List (String × List (String × String))) : List MappingSuggestion :=
  sortBySimDesc (collectSuggestions threshold baseTree variants)

/-- The base-text projection of a diff: the `base` fields of the Equal, Remove
and Modify entries, in order. -/
def baseLines (l : List LineDiffEntry) : List String :=
  l.filterMap (fun e => match e.type with | DiffType.add => none | _ => e.base)

/-- The variant-text projection of a diff: the `variant` fields of the Equal,
Add and Modify entries, in order. -/
def variantLines (l : List LineDiffEntry) : List String :=
  l.filterMap (fun e => match e.type with | DiffType.remove => none | _ => e.variant)

/-- The shape invariant of a diff entry: Equal and Modify entries carry both
fields (Equal with identical contents), Add only `variant`, Remove only
`base`. -/
def goodShape (e : LineDiffEntry) : Prop :=
  match e.type with
  | DiffType.equal => ∃ s, e.base = some s ∧ e.variant = some s
  | DiffType.add => e.base = none ∧ ∃ s, e.variant = some s
  | DiffType.remove => e.variant = none ∧ ∃ s, e.base = some s
  | DiffType.modify => ∃ b v, e.base = some b ∧ e.variant = some v

/-- A modify entry whose two sides are present and non-empty. -/
def strongModify (e : LineDiffEntry) : Prop :=
  e.type = DiffType.modify ∧
    ∃ b v, e.base = some b ∧ e.variant = some v ∧ b ≠ "" ∧ v ≠ ""

theorem baseLines_append (l1 l2 : List LineDiffEntry) :
    baseLines (l1 ++ l2) = baseLines l1 ++ baseLines l2 :=
  List.filterMap_append l1 l2 _

theorem variantLines_append (l1 l2 : List LineDiffEntry) :
    variantLines (l1 ++ l2) = variantLines l1 ++ variantLines l2 :=
  List.filterMap_append l1 l2 _

theorem baseLines_map_mkRemoveE (L : List String) : baseLines (L.map mkRemoveE) = L := by
  induction L with
  | nil => rfl
  | cons a t ih => simpa [baseLines, mkRemoveE] using ih

theorem baseLines_map_mkAddE (L : List String) : baseLines (L.map mkAddE) = [] := by
  induction L with
  | nil => rfl
  | cons a t ih => simp [baseLines, mkAddE]

theorem variantLines_map_mkAddE (L : List String) : variantLines (L.map mkAddE) = L := by
  induction L with
  | nil => rfl
  | cons a t ih => simpa [variantLines, mkAddE] using ih

theorem variantLines_map_mkRemoveE (L : List String) :
    variantLines (L.map mkRemoveE) = [] := by
  induction L with
  | nil => rfl
  | cons a t ih => simp [variantLines, mkRemoveE]

theorem baseLines_cons_equal (x : String) (t : List LineDiffEntry) :
    baseLines (mkEqualE x :: t) = x :: baseLines t := by
  simp [baseLines, mkEqualE]

theorem variantLines_cons_equal (x : String) (t : List LineDiffEntry) :
    variantLines (mkEqualE x :: t) = x :: variantLines t := by
  simp [variantLines, mkEqualE]

theorem lcsAux_sublist (a : String) (as : List String) (f : List String → List String)
    (h1 : ∀ l2, (f l2).Sublist as) (h2 : ∀ l2, (f l2).Sublist l2) :
    ∀ l2, (lcsAux a f l2).Sublist (a :: as) ∧ (lcsAux a f l2).Sublist l2 := by
  intro l2
  induction l2 with
  | nil => simp [lcsAux]
  | cons b bs ih =>
    by_cases hab : a = b
    · subst hab
      refine ⟨?_, ?_⟩
      · simpa [lcsAux] using List.Sublist.cons₂ a (h1 bs)
      · simpa [lcsAux] using List.Sublist.cons₂ a (h2 bs)
    · simp only [lcsAux, if_neg hab]
      by_cases hlen : (f (b :: bs)).length < (lcsAux a f bs).length
      · simp only [if_pos hlen]
        exact ⟨ih.1, ih.2.trans (List.sublist_cons_self b bs)⟩
      · simp only [if_neg hlen]
        exact ⟨(h1 (b :: bs)).trans (List.sublist_cons_self a as),
          h2 (b :: bs)⟩

theorem lcs_sublist (l1 : List String) : ∀ l2, (lcs l1 l2).Sublist l1 ∧ (lcs l1 l2).Sublist l2 := by
  induction l1 with
  | nil => intro l2; simp [lcs]
  | cons a as ih =>
    intro l2
    exact lcsAux_sublist a as (lcs as) (fun t => (ih t).1) (fun t => (ih t).2) l2

theorem dropWhile_ne_eq_cons {x : String} {A : List String} (h : x ∈ A) :
    A.dropWhile (fun l => decide (l ≠ x)) =
      x :: (A.dropWhile (fun l => decide (l ≠ x))).tail := by
  induction A with
  | nil => cases h
  | cons a as ih =>
    by_cases hax : a = x
    · subst hax
      rw [List.dropWhile_cons_of_neg (by simp)]
      rfl
    · have hx : x ∈ as := by
        rcases List.mem_cons.mp h with h' | h'
        · exact absurd h'.symm hax
        · exact h'
      rw [List.dropWhile_cons_of_pos (by simpa using hax)]
      exact ih hx

theorem sublist_dropWhile_tail {x : String} {cs A : List String} (h : (x :: cs).Sublist A) :
    cs.Sublist ((A.dropWhile (fun l => decide (l ≠ x))).tail) := by
  induction A with
  | nil => cases h
  | cons a as ih =>
    by_cases hax : a = x
    · subst hax
      rw [List.dropWhile_cons_of_neg (by simp)]
      cases h with
      | cons _ h' => exact (List.sublist_cons_self a cs).trans h'
      | cons₂ _ h' => exact h'
    · rw [List.dropWhile_cons_of_pos (by simpa using hax)]
      cases h with
      | cons _ h' => exact ih h'
      | cons₂ _ h' => exact absurd rfl hax

theorem takeWhile_ne_append {x : String} {A : List String} (h : x ∈ A) :
    A.takeWhile (fun l => decide (l ≠ x))
      ++ x :: (A.dropWhile (fun l => decide (l ≠ x))).tail = A := by
  conv_rhs => rw [← List.takeWhile_append_dropWhile (fun l => decide (l ≠ x)) A]
  rw [← dropWhile_ne_eq_cons h]

theorem baseLines_alignDiff : ∀ (cs A B : List String), cs.Sublist A →
    baseLines (alignDiff cs A B) = A := by
  intro cs
  induction cs with
  | nil =>
    intro A B _
    simp [alignDiff, baseLines_append, baseLines_map_mkRemoveE, baseLines_map_mkAddE]
  | cons x cs ih =>
    intro A B h
    have hx : x ∈ A := h.subset (List.mem_cons_self x cs)
    have hcs : cs.Sublist ((A.dropWhile (fun l => decide (l ≠ x))).tail) :=
      sublist_dropWhile_tail h
    simp only [alignDiff, baseLines_append, baseLines_map_mkRemoveE,
      baseLines_map_mkAddE, baseLines_cons_equal, ih _ _ hcs]
    simpa using takeWhile_ne_append hx

theorem variantLines_alignDiff : ∀ (cs A B : List String), cs.Sublist B →
    variantLines (alignDiff cs A B) = B := by
  intro cs
  induction cs with
  | nil =>
    intro A B _
    simp [alignDiff, variantLines_append, variantLines_map_mkRemoveE,
      variantLines_map_mkAddE]
  | cons x cs ih =>
    intro A B h
    have hx : x ∈ B := h.subset (List.mem_cons_self x cs)
    have hcs : cs.Sublist ((B.dropWhile (fun l => decide (l ≠ x))).tail) :=
      sublist_dropWhile_tail h
    simp only [alignDiff, variantLines_append, variantLines_map_mkRemoveE,
      variantLines_map_mkAddE, variantLines_cons_equal, ih _ _ hcs]
    simpa using takeWhile_ne_append hx

theorem alignDiff_mem : ∀ (cs A B : List String) (e : LineDiffEntry),
    e ∈ alignDiff cs A B →
    (∃ s, e = mkRemoveE s) ∨ (∃ s, e = mkAddE s) ∨ (∃ s, e = mkEqualE s) := by
  intro cs
  induction cs with
  | nil =>
    intro A B e he
    rcases List.mem_append.mp he with h | h
    · rcases List.mem_map.mp h with ⟨s, _, rfl⟩
      exact Or.inl ⟨s, rfl⟩
    · rcases List.mem_map.mp h with ⟨s, _, rfl⟩
      exact Or.inr (Or.inl ⟨s, rfl⟩)
  | cons x cs ih =>
    intro A B e he
    simp only [alignDiff, List.mem_append, List.mem_cons] at he
    rcases he with (h | h) | h | h
    · rcases List.mem_map.mp h with ⟨s, _, rfl⟩
      exact Or.inl ⟨s, rfl⟩
    · rcases List.mem_map.mp h with ⟨s, _, rfl⟩
      exact Or.inr (Or.inl ⟨s, rfl⟩)
    · exact Or.inr (Or.inr ⟨x, h⟩)
    · exact ih _ _ e h

theorem alignDiff_no_modify : ∀ (cs A B : List String) (e : LineDiffEntry),
    e ∈ alignDiff cs A B → e.type ≠ DiffType.modify := by
  intro cs A B e he
  rcases alignDiff_mem cs A B e he with ⟨s, rfl⟩ | ⟨s, rfl⟩ | ⟨s, rfl⟩ <;>
    simp [mkRemoveE, mkAddE, mkEqualE]

theorem alignDiff_goodShape : ∀ (cs A B : List String) (e : LineDiffEntry),
    e ∈ alignDiff cs A B → goodShape e := by
  intro cs A B e he
  rcases alignDiff_mem cs A B e he with ⟨s, rfl⟩ | ⟨s, rfl⟩ | ⟨s, rfl⟩
  · exact ⟨rfl, s, rfl⟩
  · exact ⟨rfl, s, rfl⟩
  · exact ⟨s, rfl, rfl⟩

theorem alignDiff_length : ∀ (cs A B : List String), cs.Sublist A → cs.Sublist B →
    (alignDiff cs A B).length ≤ A.length + B.length := by
  intro cs
  induction cs with
  | nil =>
    intro A B _ _
    simp [alignDiff]
  | cons x cs ih =>
    intro A B hA hB
    have hxA : x ∈ A := hA.subset (List.mem_cons_self x cs)
    have hxB : x ∈ B := hB.subset (List.mem_cons_self x cs)
    have hAlen := congrArg List.length (takeWhile_ne_append hxA)
    have hBlen := congrArg List.length (takeWhile_ne_append hxB)
    simp only [List.length_append, List.length_cons] at hAlen hBlen
    have hrec := ih _ _ (sublist_dropWhile_tail hA) (sublist_dropWhile_tail hB)
    simp only [alignDiff, List.length_append, List.length_cons, List.length_map]
    omega

theorem pairUpGo_fuel : ∀ (f1 f2 : ℕ) (l : List LineDiffEntry),
    l.length ≤ f1 → l.length ≤ f2 → pairUpGo f1 l = pairUpGo f2 l := by
  intro f1
  induction f1 with
  | zero =>
    intro f2 l h1 _
    have hl : l = [] := List.eq_nil_of_length_eq_zero (Nat.le_zero.mp h1)
    subst hl
    cases f2 <;> rfl
  | succ f ih =>
    intro f2 l h1 h2
    cases l with
    | nil => cases f2 <;> rfl
    | cons e rest =>
      cases f2 with
      | zero => simp at h2
      | succ g =>
        simp only [pairUpGo]
        by_cases ht : e.type = DiffType.remove
        · rw [if_pos ht, if_pos ht]
          have hr1 : ((e :: rest).dropWhile
              (fun x => decide (x.type = DiffType.remove))).length ≤ rest.length := by
            rw [List.dropWhile_cons_of_pos (by simpa using ht)]
            exact (List.dropWhile_sublist _).length_le
          have hr2 : (((e :: rest).dropWhile
              (fun x => decide (x.type = DiffType.remove))).dropWhile
              (fun x => decide (x.type = DiffType.add))).length ≤ rest.length :=
            le_trans (List.dropWhile_sublist _).length_le hr1
          simp only [List.length_cons] at h1 h2
          congr 1
          exact ih g _ (by omega) (by omega)
        · rw [if_neg ht, if_neg ht]
          simp only [List.length_cons] at h1 h2
          congr 1
          exact ih g rest (by omega) (by omega)

theorem pairUp_nil : pairUp [] = [] := rfl

theorem pairUp_cons_not {e : LineDiffEntry} (rest : List LineDiffEntry)
    (h : e.type ≠ DiffType.remove) : pairUp (e :: rest) = e :: pairUp rest := by
  show pairUpGo (rest.length + 1) (e :: rest) = e :: pairUp rest
  simp only [pairUpGo, if_neg h]
  rfl

theorem pairUp_cons_rem {e : LineDiffEntry} (rest : List LineDiffEntry)
    (h : e.type = DiffType.remove) :
    ∃ removes adds rest2 : List LineDiffEntry,
      e :: rest = removes ++ adds ++ rest2 ∧
      (∀ x ∈ removes, x.type = DiffType.remove) ∧
      (∀ x ∈ adds, x.type = DiffType.add) ∧
      0 < removes.length ∧ rest2.length ≤ rest.length ∧
      pairUp (e :: rest) =
        (if 0 < adds.length then processRun removes adds else removes) ++ pairUp rest2 := by
  refine ⟨(e :: rest).takeWhile (fun x => decide (x.type = DiffType.remove)),
    ((e :: rest).dropWhile (fun x => decide (x.type = DiffType.remove))).takeWhile
      (fun x => decide (x.type = DiffType.add)),
    ((e :: rest).dropWhile (fun x => decide (x.type = DiffType.remove))).dropWhile
      (fun x => decide (x.type = DiffType.add)),
    ?_, ?_, ?_, ?_, ?_, ?_⟩
  · rw [List.append_assoc, List.takeWhile_append_dropWhile,
      List.takeWhile_append_dropWhile]
  · intro x hx
    simpa using List.mem_takeWhile_imp hx
  · intro x hx
    simpa using List.mem_takeWhile_imp hx
  · rw [List.takeWhile_cons_of_pos (by simpa using h)]
    simp
  · calc (((e :: rest).dropWhile (fun x => decide (x.type = DiffType.remove))).dropWhile
          (fun x => decide (x.type = DiffType.add))).length
        ≤ ((e :: rest).dropWhile (fun x => decide (x.type = DiffType.remove))).length :=
          (List.dropWhile_sublist _).length_le
      _ ≤ rest.length := by
          rw [List.dropWhile_cons_of_pos (by simpa using h)]
          exact (List.dropWhile_sublist _).length_le
  · have hpos : 0 < ((e :: rest).takeWhile
        (fun x => decide (x.type = DiffType.remove))).length := by
      rw [List.takeWhile_cons_of_pos (by simpa using h)]
      simp
    show pairUpGo (rest.length + 1) (e :: rest) = _
    simp only [pairUpGo, if_pos h]
    rw [if_congr (and_iff_right hpos) rfl rfl]
    congr 1
    refine pairUpGo_fuel rest.length _ _ ?_ le_rfl
    calc (((e :: rest).dropWhile (fun x => decide (x.type = DiffType.remove))).dropWhile
          (fun x => decide (x.type = DiffType.add))).length
        ≤ ((e :: rest).dropWhile (fun x => decide (x.type = DiffType.remove))).length :=
          (List.dropWhile_sublist _).length_le
      _ ≤ rest.length := by
          rw [List.dropWhile_cons_of_pos (by simpa using h)]
          exact (List.dropWhile_sublist _).length_le

theorem processRemoves_cons_cases (adds : List LineDiffEntry) (r : LineDiffEntry)
    (rs : List LineDiffEntry) (used : List ℕ) :
    (∃ idx sim a bs vs, findBestMatch r.base adds used = some (idx, sim) ∧
        adds[idx]? = some a ∧ r.base = some bs ∧ a.variant = some vs ∧
        bs ≠ "" ∧ vs ≠ "" ∧
        processRemoves adds (r :: rs) used =
          (⟨some bs, some vs, DiffType.modify⟩ :: (processRemoves adds rs (idx :: used)).1,
           (processRemoves adds rs (idx :: used)).2)) ∨
    processRemoves adds (r :: rs) used =
      (r :: (processRemoves adds rs used).1, (processRemoves adds rs used).2) := by
  cases hfb : findBestMatch r.base adds used with
  | none =>
    right
    simp only [processRemoves, hfb]
  | some best =>
    obtain ⟨idx, sim⟩ := best
    cases hga : adds[idx]? with
    | none =>
      right
      simp only [processRemoves, hfb, hga]
    | some a =>
      cases hbase : r.base with
      | none =>
        right
        rw [hbase] at hfb
        simp only [processRemoves, hbase, hfb, hga]
      | some bs =>
        cases hvar : a.variant with
        | none =>
          right
          rw [hbase] at hfb
          simp only [processRemoves, hbase, hfb, hga, hvar]
        | some vs =>
          rw [hbase] at hfb
          by_cases hne : bs ≠ "" ∧ vs ≠ ""
          · left
            refine ⟨idx, sim, a, bs, vs, rfl, hga, rfl, hvar, hne.1, hne.2, ?_⟩
            simp only [processRemoves, hbase, hfb, hga, hvar, if_pos hne]
          · right
            simp only [processRemoves, hbase, hfb, hga, hvar, if_neg hne]

theorem processRemoves_length (adds : List LineDiffEntry) :
    ∀ (rs : List LineDiffEntry) (used : List ℕ),
      ((processRemoves adds rs used).1).length = rs.length := by
  intro rs
  induction rs with
  | nil => intro used; rfl
  | cons r rs ih =>
    intro used
    rcases processRemoves_cons_cases adds r rs used with
      ⟨idx, sim, a, bs, vs, _, _, _, _, _, _, heq⟩ | heq
    · rw [heq]
      simp [ih]
    · rw [heq]
      simp [ih]

theorem processRemoves_baseLines (adds : List LineDiffEntry) :
    ∀ (rs : List LineDiffEntry) (used : List ℕ),
      (∀ x ∈ rs, x.type = DiffType.remove) →
      baseLines ((processRemoves adds rs used).1) = baseLines rs := by
  intro rs
  induction rs with
  | nil => intro used _; rfl
  | cons r rs ih =>
    intro used hall
    have hr : r.type = DiffType.remove := hall r (List.mem_cons_self r rs)
    have hrs : ∀ x ∈ rs, x.type = DiffType.remove := fun x hx =>
      hall x (List.mem_cons.mpr (Or.inr hx))
    rcases processRemoves_cons_cases adds r rs used with
      ⟨idx, sim, a, bs, vs, _, _, hbase, _, _, _, heq⟩ | heq
    · rw [heq]
      simp only [baseLines, List.filterMap_cons, hr, hbase]
      exact congrArg (bs :: ·) (ih (idx :: used) hrs)
    · rw [heq]
      simp only [baseLines, List.filterMap_cons, hr]
      cases r.base with
      | none => exact ih used hrs
      | some b => exact congrArg (b :: ·) (ih used hrs)

theorem processRemoves_mem (adds : List LineDiffEntry) :
    ∀ (rs : List LineDiffEntry) (used : List ℕ) (e : LineDiffEntry),
      e ∈ (processRemoves adds rs used).1 → e ∈ rs ∨ strongModify e := by
  intro rs
  induction rs with
  | nil => intro used e he; cases he
  | cons r rs ih =>
    intro used e he
    rcases processRemoves_cons_cases adds r rs used with
      ⟨idx, sim, a, bs, vs, _, _, _, _, hbs, hvs, heq⟩ | heq
    · rw [heq] at he
      rcases List.mem_cons.mp he with rfl | he'
      · exact Or.inr ⟨rfl, bs, vs, rfl, rfl, hbs, hvs⟩
      · rcases ih _ e he' with h | h
        · exact Or.inl (List.mem_cons.mpr (Or.inr h))
        · exact Or.inr h
    · rw [heq] at he
      rcases List.mem_cons.mp he with rfl | he'
      · exact Or.inl (List.mem_cons_self _ _)
      · rcases ih _ e he' with h | h
        · exact Or.inl (List.mem_cons.mpr (Or.inr h))
        · exact Or.inr h

theorem foldl_invariant {α β : Type} (P : β → Prop) (op : β → α → β) :
    ∀ (l : List α) (b : β), P b → (∀ b' a, a ∈ l → P b' → P (op b' a)) →
      P (l.foldl op b) := by
  intro l
  induction l with
  | nil => intro b hb _; exact hb
  | cons x xs ih =>
    intro b hb hstep
    exact ih (op b x) (hstep b x (List.mem_cons_self _ _) hb)
      (fun b' a ha => hstep b' a (List.mem_cons.mpr (Or.inr ha)))

theorem findBestMatch_valid (baseOpt : Option String) (adds : List LineDiffEntry)
    (used : List ℕ) (idx : ℕ) (sim : ℚ)
    (h : findBestMatch baseOpt adds used = some (idx, sim)) :
    idx ∉ used ∧ ∃ a, adds[idx]? = some a ∧ ∃ vs, a.variant = some vs ∧ vs ≠ "" := by
  have key : ∀ i s, findBestMatch baseOpt adds used = some (i, s) →
      i ∉ used ∧ ∃ a, adds[i]? = some a ∧ ∃ vs, a.variant = some vs ∧ vs ≠ "" := by
    unfold findBestMatch
    refine foldl_invariant
      (fun o => ∀ i s, o = some (i, s) →
        i ∉ used ∧ ∃ a, adds[i]? = some a ∧ ∃ vs, a.variant = some vs ∧ vs ≠ "")
      _ adds.enum none (by intro i s hc; cases hc) ?_
    intro b p hp hb i s hc
    by_cases hu : p.1 ∈ used
    · rw [if_pos hu] at hc
      exact hb i s hc
    · rw [if_neg hu] at hc
      cases hbo : baseOpt with
      | none =>
        cases hv : p.2.variant with
        | none =>
          simp only [hbo, hv] at hc
          exact hb i s hc
        | some vs =>
          simp only [hbo, hv] at hc
          exact hb i s hc
      | some bs =>
        cases hv : p.2.variant with
        | none =>
          simp only [hbo, hv] at hc
          exact hb i s hc
        | some vs =>
          simp only [hbo, hv] at hc
          by_cases hne : bs ≠ "" ∧ vs ≠ ""
          · rw [if_pos hne] at hc
            cases b with
            | none =>
              by_cases hs : (0.2 : ℚ) < calculateStringSimilarity bs vs
              · rw [if_pos hs] at hc
                obtain ⟨rfl, rfl⟩ : p.1 = i ∧ calculateStringSimilarity bs vs = s := by
                  have := Option.some.inj hc
                  exact ⟨congrArg Prod.fst this, congrArg Prod.snd this⟩
                refine ⟨hu, p.2, ?_, vs, hv, hne.2⟩
                have : (p.1, p.2) ∈ adds.enum := by rwa [Prod.mk.eta]
                exact List.mem_enum_iff_getElem?.mp this
              · rw [if_neg hs] at hc
                cases hc
            | some b0 =>
              dsimp only at hc
              by_cases hs : (0.2 : ℚ) < calculateStringSimilarity bs vs ∧
                  b0.2 < calculateStringSimilarity bs vs
              · rw [if_pos hs] at hc
                obtain ⟨rfl, rfl⟩ : p.1 = i ∧ calculateStringSimilarity bs vs = s := by
                  have := Option.some.inj hc
                  exact ⟨congrArg Prod.fst this, congrArg Prod.snd this⟩
                refine ⟨hu, p.2, ?_, vs, hv, hne.2⟩
                have : (p.1, p.2) ∈ adds.enum := by rwa [Prod.mk.eta]
                exact List.mem_enum_iff_getElem?.mp this
              · rw [if_neg hs] at hc
                exact hb i s hc
          · rw [if_neg hne] at hc
            exact hb i s hc
  exact key idx sim h

theorem filter_unused_perm {α : Type} :
    ∀ (l : List (ℕ × α)) (u : List ℕ) (idx : ℕ) (e : α),
      (l.map Prod.fst).Nodup → (idx, e) ∈ l → idx ∉ u →
      (l.filter (fun p => decide (p.1 ∉ u))).Perm
        ((idx, e) :: l.filter (fun p => decide (p.1 ∉ idx :: u))) := by
  intro l
  induction l with
  | nil => intro u idx e _ hm _; cases hm
  | cons hd tl ih =>
    intro u idx e hn hm hu
    obtain ⟨j, b⟩ := hd
    have hnj : j ∉ tl.map Prod.fst := by
      simp only [List.map_cons, List.nodup_cons] at hn
      exact hn.1
    have hntl : (tl.map Prod.fst).Nodup := by
      simp only [List.map_cons, List.nodup_cons] at hn
      exact hn.2
    by_cases hj : j = idx
    · subst hj
      have hbe : b = e := by
        rcases List.mem_cons.mp hm with h' | h'
        · exact (Prod.mk.injEq _ _ _ _ ▸ h'.symm).2
        · exact absurd (List.mem_map_of_mem Prod.fst h') hnj
      subst hbe
      rw [List.filter_cons_of_pos (by simpa using hu),
        List.filter_cons_of_neg (by simp)]
      have hcong : tl.filter (fun p => decide (p.1 ∉ u)) =
          tl.filter (fun p => decide (p.1 ∉ j :: u)) := by
        refine List.filter_congr ?_
        intro p hp
        have : p.1 ≠ j := by
          intro hpj
          exact hnj (hpj ▸ List.mem_map_of_mem Prod.fst hp)
        simp [List.mem_cons, this]
      rw [hcong]
    · have hm' : (idx, e) ∈ tl := by
        rcases List.mem_cons.mp hm with h' | h'
        · exact absurd (congrArg Prod.fst h') (fun hh => hj hh.symm)
        · exact h'
      by_cases hju : j ∈ u
      · rw [List.filter_cons_of_neg (by simpa using hju),
          List.filter_cons_of_neg (by simp [List.mem_cons, hju])]
        exact ih u idx e hntl hm' hu
      · have hju2 : j ∉ idx :: u := by
          simp only [List.mem_cons]
          rintro (h | h)
          · exact hj h
          · exact hju h
        rw [List.filter_cons_of_pos (by simpa using hju),
          List.filter_cons_of_pos (by simpa using hju2)]
        exact ((ih u idx e hntl hm' hu).cons (j, b)).trans (List.Perm.swap _ _ _)

theorem unusedOf_perm_cons (adds : List LineDiffEntry) (used : List ℕ) (idx : ℕ)
    (a : LineDiffEntry) (hga : adds[idx]? = some a) (hu : idx ∉ used) :
    (unusedOf adds used).Perm (a :: unusedOf adds (idx :: used)) := by
  have hmem : (idx, a) ∈ adds.enum := List.mem_enum_iff_getElem?.mpr hga
  have hnd : (adds.enum.map Prod.fst).Nodup := by
    rw [List.enum_map_fst]
    exact List.nodup_range _
  have hperm := filter_unused_perm adds.enum used idx a hnd hmem hu
  have hm := hperm.map (fun q : ℕ × LineDiffEntry => q.2)
  simpa [unusedOf] using hm

theorem variantLines_cons_remove {r : LineDiffEntry} (h : r.type = DiffType.remove)
    (t : List LineDiffEntry) : variantLines (r :: t) = variantLines t := by
  simp [variantLines, List.filterMap_cons, h]

theorem baseLines_eq_nil {l : List LineDiffEntry}
    (h : ∀ e ∈ l, e.type = DiffType.add) : baseLines l = [] := by
  rw [baseLines, List.filterMap_eq_nil_iff]
  intro e he
  simp [h e he]

theorem variantLines_eq_nil {l : List LineDiffEntry}
    (h : ∀ e ∈ l, e.type = DiffType.remove) : variantLines l = [] := by
  rw [variantLines, List.filterMap_eq_nil_iff]
  intro e he
  simp [h e he]

theorem mem_unusedOf (adds : List LineDiffEntry) (used : List ℕ) (e : LineDiffEntry) :
    e ∈ unusedOf adds used → e ∈ adds := by
  intro he
  rcases List.mem_map.mp he with ⟨q, hq, rfl⟩
  have h2 := List.mem_map_of_mem Prod.snd (List.mem_of_mem_filter hq)
  rwa [List.enum_map_snd] at h2

theorem unusedOf_nil_used (adds : List LineDiffEntry) : unusedOf adds [] = adds := by
  have : adds.enum.filter (fun q => decide (q.1 ∉ ([] : List ℕ))) = adds.enum := by
    refine List.filter_eq_self.mpr ?_
    intro q _
    simp
  rw [unusedOf, this, List.enum_map_snd]

theorem processRemoves_variant_perm (adds : List LineDiffEntry)
    (hladd : ∀ x ∈ adds, x.type = DiffType.add) :
    ∀ (rs : List LineDiffEntry) (used : List ℕ),
      (∀ x ∈ rs, x.type = DiffType.remove) →
      (variantLines ((processRemoves adds rs used).1)
        ++ variantLines (unusedOf adds ((processRemoves adds rs used).2))).Perm
        (variantLines (unusedOf adds used)) := by
  intro rs
  induction rs with
  | nil =>
    intro used _
    simp [processRemoves, variantLines]
  | cons r rs ih =>
    intro used hall
    have hr := hall r (List.mem_cons_self _ _)
    have hrs : ∀ x ∈ rs, x.type = DiffType.remove := fun x hx =>
      hall x (List.mem_cons.mpr (Or.inr hx))
    rcases processRemoves_cons_cases adds r rs used with
      ⟨idx, sim, a, bs, vs, hfb, hga, hbase, hvar, hbs, hvs, heq⟩ | heq
    · rw [heq]
      have hvalid := findBestMatch_valid r.base adds used idx sim hfb
      have hu : idx ∉ used := hvalid.1
      have ha : a.type = DiffType.add := hladd a (List.getElem?_mem hga)
      have h1 : variantLines
          (⟨some bs, some vs, DiffType.modify⟩ :: (processRemoves adds rs (idx :: used)).1)
          = vs :: variantLines ((processRemoves adds rs (idx :: used)).1) := by
        simp [variantLines, List.filterMap_cons]
      have hIH := ih (idx :: used) hrs
      have hstep := unusedOf_perm_cons adds used idx a hga hu
      have h2 : variantLines (a :: unusedOf adds (idx :: used))
          = vs :: variantLines (unusedOf adds (idx :: used)) := by
        simp [variantLines, List.filterMap_cons, ha, hvar]
      have hstepv := hstep.filterMap
        (fun e => match e.type with | DiffType.remove => none | _ => e.variant)
      rw [show (List.filterMap
          (fun e => match e.type with | DiffType.remove => none | _ => e.variant)
          (unusedOf adds used)) = variantLines (unusedOf adds used) from rfl] at hstepv
      rw [show (List.filterMap
          (fun e => match e.type with | DiffType.remove => none | _ => e.variant)
          (a :: unusedOf adds (idx :: used)))
          = variantLines (a :: unusedOf adds (idx :: used)) from rfl] at hstepv
      rw [h2] at hstepv
      have hfin : variantLines (⟨some bs, some vs, DiffType.modify⟩ ::
              (processRemoves adds rs (idx :: used)).1)
            ++ variantLines (unusedOf adds ((processRemoves adds rs (idx :: used)).2))
          = vs :: (variantLines ((processRemoves adds rs (idx :: used)).1)
            ++ variantLines (unusedOf adds ((processRemoves adds rs (idx :: used)).2))) := by
        rw [h1]
        rfl
      rw [hfin]
      exact (hIH.cons vs).trans hstepv.symm
    · rw [heq]
      rw [variantLines_cons_remove hr]
      exact ih used hrs

theorem processRun_baseLines (removes adds : List LineDiffEntry)
    (hrem : ∀ x ∈ removes, x.type = DiffType.remove)
    (hadd : ∀ x ∈ adds, x.type = DiffType.add) :
    baseLines (processRun removes adds) = baseLines removes := by
  unfold processRun
  rw [baseLines_append, processRemoves_baseLines adds removes [] hrem,
    baseLines_eq_nil (fun e he => hadd e (mem_unusedOf _ _ _ he)), List.append_nil]

theorem processRun_variant_perm (removes adds : List LineDiffEntry)
    (hrem : ∀ x ∈ removes, x.type = DiffType.remove)
    (hadd : ∀ x ∈ adds, x.type = DiffType.add) :
    (variantLines (processRun removes adds)).Perm (variantLines adds) := by
  unfold processRun
  rw [variantLines_append]
  have h := processRemoves_variant_perm adds hadd removes [] hrem
  rwa [unusedOf_nil_used] at h

theorem processRun_mem (removes adds : List LineDiffEntry) :
    ∀ e ∈ processRun removes adds, e ∈ removes ∨ e ∈ adds ∨ strongModify e := by
  intro e he
  unfold processRun at he
  rcases List.mem_append.mp he with h | h
  · rcases processRemoves_mem adds removes [] e h with h' | h'
    · exact Or.inl h'
    · exact Or.inr (Or.inr h')
  · exact Or.inr (Or.inl (mem_unusedOf _ _ _ h))

theorem processRun_length (removes adds : List LineDiffEntry) :
    (processRun removes adds).length ≤ removes.length + adds.length := by
  unfold processRun
  rw [List.length_append, processRemoves_length]
  have h : (unusedOf adds ((processRemoves adds removes []).2)).length ≤ adds.length := by
    rw [unusedOf, List.length_map]
    calc (adds.enum.filter (fun q => decide (q.1 ∉ (processRemoves adds removes []).2))).length
        ≤ adds.enum.length := List.length_filter_le _ _
      _ = adds.length := List.enum_length
  omega

theorem baseLines_cons_congr {t1 t2 : List LineDiffEntry} (e : LineDiffEntry)
    (h : baseLines t1 = baseLines t2) : baseLines (e :: t1) = baseLines (e :: t2) := by
  simp only [baseLines, List.filterMap_cons]
  cases hm : (match e.type with | DiffType.add => none | _ => e.base) with
  | none => exact h
  | some b => exact congrArg (b :: ·) h

theorem variantLines_cons_perm {t1 t2 : List LineDiffEntry} (e : LineDiffEntry)
    (h : (variantLines t1).Perm (variantLines t2)) :
    (variantLines (e :: t1)).Perm (variantLines (e :: t2)) := by
  simp only [variantLines, List.filterMap_cons]
  cases hm : (match e.type with | DiffType.remove => none | _ => e.variant) with
  | none => exact h
  | some v => exact h.cons v

theorem pairUp_baseLines_aux : ∀ (n : ℕ) (l : List LineDiffEntry), l.length ≤ n →
    baseLines (pairUp l) = baseLines l := by
  intro n
  induction n with
  | zero =>
    intro l hl
    have : l = [] := List.eq_nil_of_length_eq_zero (Nat.le_zero.mp hl)
    subst this
    rfl
  | succ m ih =>
    intro l hl
    cases l with
    | nil => rfl
    | cons e rest =>
      simp only [List.length_cons] at hl
      by_cases ht : e.type = DiffType.remove
      · obtain ⟨removes, adds, rest2, hdec, hremT, haddT, hpos, hlen, heq⟩ :=
          pairUp_cons_rem rest ht
        rw [heq, baseLines_append, hdec, baseLines_append, baseLines_append]
        rw [ih rest2 (by omega)]
        by_cases hadds : 0 < adds.length
        · rw [if_pos hadds, processRun_baseLines removes adds hremT haddT,
            baseLines_eq_nil haddT]
          simp
        · have : adds = [] := by
            cases adds with
            | nil => rfl
            | cons x xs => simp at hadds
          subst this
          rw [if_neg hadds]
          simp [baseLines_append, baseLines]
      · rw [pairUp_cons_not rest ht]
        exact baseLines_cons_congr e (ih rest (by omega))

theorem pairUp_baseLines (l : List LineDiffEntry) : baseLines (pairUp l) = baseLines l :=
  pairUp_baseLines_aux l.length l le_rfl

theorem pairUp_variant_perm_aux : ∀ (n : ℕ) (l : List LineDiffEntry), l.length ≤ n →
    (variantLines (pairUp l)).Perm (variantLines l) := by
  intro n
  induction n with
  | zero =>
    intro l hl
    have : l = [] := List.eq_nil_of_length_eq_zero (Nat.le_zero.mp hl)
    subst this
    exact List.Perm.refl _
  | succ m ih =>
    intro l hl
    cases l with
    | nil => exact List.Perm.refl _
    | cons e rest =>
      simp only [List.length_cons] at hl
      by_cases ht : e.type = DiffType.remove
      · obtain ⟨removes, adds, rest2, hdec, hremT, haddT, hpos, hlen, heq⟩ :=
          pairUp_cons_rem rest ht
        rw [heq, variantLines_append, hdec, variantLines_append, variantLines_append,
          variantLines_eq_nil hremT]
        have hr2 := ih rest2 (by omega)
        by_cases hadds : 0 < adds.length
        · rw [if_pos hadds]
          exact ((processRun_variant_perm removes adds hremT haddT).append hr2).trans
            (List.Perm.refl _)
        · have : adds = [] := by
            cases adds with
            | nil => rfl
            | cons x xs => simp at hadds
          subst this
          rw [if_neg hadds, variantLines_eq_nil hremT]
          simpa using hr2
      · rw [pairUp_cons_not rest ht]
        exact variantLines_cons_perm e (ih rest (by omega))

theorem pairUp_variant_perm (l : List LineDiffEntry) :
    (variantLines (pairUp l)).Perm (variantLines l) :=
  pairUp_variant_perm_aux l.length l le_rfl

theorem pairUp_mem_aux : ∀ (n : ℕ) (l : List LineDiffEntry), l.length ≤ n →
    ∀ e ∈ pairUp l, e ∈ l ∨ strongModify e := by
  intro n
  induction n with
  | zero =>
    intro l hl e he
    have : l = [] := List.eq_nil_of_length_eq_zero (Nat.le_zero.mp hl)
    subst this
    cases he
  | succ m ih =>
    intro l hl e he
    cases l with
    | nil => cases he
    | cons e0 rest =>
      simp only [List.length_cons] at hl
      by_cases ht : e0.type = DiffType.remove
      · obtain ⟨removes, adds, rest2, hdec, hremT, haddT, hpos, hlen, heq⟩ :=
          pairUp_cons_rem rest ht
        rw [heq] at he
        rcases List.mem_append.mp he with h | h
        · by_cases hadds : 0 < adds.length
          · rw [if_pos hadds] at h
            rcases processRun_mem removes adds e h with h' | h' | h'
            · exact Or.inl (hdec ▸ List.mem_append.mpr
                (Or.inl (List.mem_append.mpr (Or.inl h'))))
            · exact Or.inl (hdec ▸ List.mem_append.mpr
                (Or.inl (List.mem_append.mpr (Or.inr h'))))
            · exact Or.inr h'
          · rw [if_neg hadds] at h
            exact Or.inl (hdec ▸ List.mem_append.mpr
              (Or.inl (List.mem_append.mpr (Or.inl h))))
        · rcases ih rest2 (by omega) e h with h' | h'
          · exact Or.inl (hdec ▸ List.mem_append.mpr (Or.inr h'))
          · exact Or.inr h'
      · rw [pairUp_cons_not rest ht] at he
        rcases List.mem_cons.mp he with rfl | he'
        · exact Or.inl (List.mem_cons_self _ _)
        · rcases ih rest (by omega) e he' with h | h
          · exact Or.inl (List.mem_cons.mpr (Or.inr h))
          · exact Or.inr h

theorem pairUp_mem (l : List LineDiffEntry) :
    ∀ e ∈ pairUp l, e ∈ l ∨ strongModify e :=
  pairUp_mem_aux l.length l le_rfl

theorem pairUp_length_aux : ∀ (n : ℕ) (l : List LineDiffEntry), l.length ≤ n →
    (pairUp l).length ≤ l.length := by
  intro n
  induction n with
  | zero =>
    intro l hl
    have : l = [] := List.eq_nil_of_length_eq_zero (Nat.le_zero.mp hl)
    subst this
    simp [pairUp_nil]
  | succ m ih =>
    intro l hl
    cases l with
    | nil => simp [pairUp_nil]
    | cons e rest =>
      simp only [List.length_cons] at hl
      by_cases ht : e.type = DiffType.remove
      · obtain ⟨removes, adds, rest2, hdec, hremT, haddT, hpos, hlen, heq⟩ :=
          pairUp_cons_rem rest ht
        have hdlen := congrArg List.length hdec
        simp only [List.length_append, List.length_cons] at hdlen
        have hr2 := ih rest2 (by omega)
        rw [heq, List.length_append]
        by_cases hadds : 0 < adds.length
        · rw [if_pos hadds]
          have := processRun_length removes adds
          simp only [List.length_cons]
          omega
        · rw [if_neg hadds]
          simp only [List.length_cons]
          omega
      · rw [pairUp_cons_not rest ht]
        have := ih rest (by omega)
        simp only [List.length_cons]
        omega

theorem pairUp_length (l : List LineDiffEntry) : (pairUp l).length ≤ l.length :=
  pairUp_length_aux l.length l le_rfl

/-- Edit-distance recurrence on the last characters of the two prefixes, used
to relate the `levenshteinDistance` matrix rows to a closed form: the
arguments are the reversed prefixes of `str1` and `str2`. -/
def dLast : List Char → List Char → ℕ
  | [], t => t.length
  | u, [] => u.length
  | a :: u, b :: t =>
    if b = a then dLast u t
    else Nat.min (Nat.min (dLast u t + 1) (dLast u (b :: t) + 1)) (dLast (a :: u) t + 1)
termination_by u t => u.length + t.length

theorem dLast_nil_left (t : List Char) : dLast [] t = t.length := by
  simp [dLast]

theorem dLast_nil_right (u : List Char) : dLast u [] = u.length := by
  cases u <;> simp [dLast]

theorem dLast_cons_cons (a : Char) (u : List Char) (b : Char) (t : List Char) :
    dLast (a :: u) (b :: t) =
      if b = a then dLast u t
      else Nat.min (Nat.min (dLast u t + 1) (dLast u (b :: t) + 1)) (dLast (a :: u) t + 1) := by
  simp [dLast]

/-- The row of the `levenshteinDistance` matrix whose entries are the edit
distances between every prefix of `acc.reverse ++ s`-style splits and the
processed part of the second string (both reversed). -/
def rowModel (acc : List Char) (s : List Char) (r2 : List Char) : List ℕ :=
  s.inits.map (fun u => dLast (u.reverse ++ acc) r2)

theorem rowModel_nil (acc r2 : List Char) : rowModel acc [] r2 = [dLast acc r2] := by
  simp [rowModel]

theorem rowModel_cons (acc : List Char) (a : Char) (s r2 : List Char) :
    rowModel acc (a :: s) r2 = dLast acc r2 :: rowModel (a :: acc) s r2 := by
  simp only [rowModel, List.inits_cons, List.map_cons, List.map_map]
  congr 1
  refine List.map_congr_left ?_
  intro u _
  simp [Function.comp, List.reverse_cons, List.append_assoc, List.singleton_append]

theorem rowModel_head (acc : List Char) (s r2 : List Char) :
    rowModel acc s r2 = dLast acc r2 :: (rowModel acc s r2).tail := by
  cases s with
  | nil => rw [rowModel_nil]; rfl
  | cons a t => rw [rowModel_cons]; rfl

theorem rowModel_getLastD : ∀ (s acc r2 : List Char) (d : ℕ),
    (rowModel acc s r2).getLastD d = dLast (List.reverseAux s acc) r2 := by
  intro s
  induction s with
  | nil =>
    intro acc r2 d
    rw [rowModel_nil]
    rfl
  | cons a s ih =>
    intro acc r2 d
    rw [rowModel_cons, List.getLastD_cons]
    exact ih (a :: acc) r2 (dLast acc r2)

theorem rowModel_length (acc s r2 : List Char) :
    (rowModel acc s r2).length = s.length + 1 := by
  simp [rowModel, List.length_inits]

theorem levRowGo_rowModel : ∀ (s acc r2 : List Char) (c : Char),
    levRowGo c s (rowModel acc s r2) (dLast acc (c :: r2)) =
      (rowModel acc s (c :: r2)).tail := by
  intro s
  induction s with
  | nil =>
    intro acc r2 c
    rw [rowModel_nil, rowModel_nil]
    rfl
  | cons a s ih =>
    intro acc r2 c
    rw [rowModel_cons, rowModel_cons]
    simp only [levRowGo]
    have hpj : (rowModel (a :: acc) s r2).headD 0 = dLast (a :: acc) r2 := by
      rw [rowModel_head (a :: acc) s r2]
      rfl
    have hq : (if c = a then dLast acc r2
        else Nat.min (Nat.min (dLast acc r2 + 1) (dLast acc (c :: r2) + 1))
          ((rowModel (a :: acc) s r2).headD 0 + 1))
        = dLast (a :: acc) (c :: r2) := by
      rw [hpj, dLast_cons_cons]
    rw [hq, ih (a :: acc) r2 c]
    rw [rowModel_head (a :: acc) s (c :: r2)]
    rfl

theorem levRows_rowModel : ∀ (cs r2 s1 : List Char),
    levRows s1 cs (rowModel [] s1 r2) (r2.length + 1) =
      rowModel [] s1 (List.reverseAux cs r2) := by
  intro cs
  induction cs with
  | nil => intro r2 s1; rfl
  | cons c cs ih =>
    intro r2 s1
    simp only [levRows]
    have hrow : (r2.length + 1) :: levRowGo c s1 (rowModel [] s1 r2) (r2.length + 1)
        = rowModel [] s1 (c :: r2) := by
      have hseed : r2.length + 1 = dLast [] (c :: r2) := by
        rw [dLast_nil_left]
        rfl
      rw [hseed, levRowGo_rowModel s1 [] r2 c, ← rowModel_head]
    rw [hrow]
    have harith : r2.length + 1 + 1 = (c :: r2).length + 1 := by simp
    rw [harith, ih (c :: r2) s1]
    rfl

theorem map_length_inits : ∀ (l : List Char),
    l.inits.map List.length = List.range (l.length + 1) := by
  intro l
  induction l with
  | nil => rfl
  | cons a t ih =>
    rw [List.inits_cons, List.map_cons, List.map_map, List.length_cons,
      List.range_succ_eq_map, ← ih, List.map_map]
    constructor

theorem levInitRow_rowModel (s1 : List Char) :
    levInitRow s1.length = rowModel [] s1 [] := by
  unfold levInitRow rowModel
  have h1 : (fun u : List Char => dLast (u.reverse ++ []) []) =
      (fun u : List Char => u.length) := by
    funext u
    rw [List.append_nil, dLast_nil_right, List.length_reverse]
  rw [h1, map_length_inits]

theorem levFinalRow_rowModel (str1 str2 : String) :
    levFinalRow str1 str2 = rowModel [] str1.data str2.data.reverse := by
  unfold levFinalRow
  have hlen : str1.length = str1.data.length := rfl
  rw [hlen, levInitRow_rowModel str1.data]
  have hrows := levRows_rowModel str2.data [] str1.data
  simpa using hrows

theorem levenshteinDistance_eq_dLast (str1 str2 : String) :
    levenshteinDistance str1 str2 = dLast str1.data.reverse str2.data.reverse := by
  unfold levenshteinDistance
  rw [levFinalRow_rowModel, rowModel_getLastD]
  rfl

theorem levFinalRow_length (str1 str2 : String) :
    (levFinalRow str1 str2).length = str1.length + 1 := by
  rw [levFinalRow_rowModel, rowModel_length]
  rfl

theorem dLast_self : ∀ (l : List Char), dLast l l = 0 := by
  intro l
  induction l with
  | nil => rw [dLast_nil_left]; rfl
  | cons a t ih => rw [dLast_cons_cons, if_pos rfl]; exact ih

theorem dLast_le_max : ∀ (u t : List Char), dLast u t ≤ max u.length t.length := by
  intro u
  induction u with
  | nil =>
    intro t
    rw [dLast_nil_left]
    exact le_max_right _ _
  | cons a u ihu =>
    intro t
    induction t with
    | nil =>
      rw [dLast_nil_right]
      exact le_max_left _ _
    | cons b t iht =>
      rw [dLast_cons_cons]
      by_cases hba : b = a
      · rw [if_pos hba]
        refine le_trans (ihu t) ?_
        simp only [List.length_cons]
        exact le_trans (le_of_eq rfl) (by rw [Nat.succ_max_succ]; omega)
      · rw [if_neg hba]
        have h1 : Nat.min (Nat.min (dLast u t + 1) (dLast u (b :: t) + 1))
            (dLast (a :: u) t + 1) ≤ dLast u t + 1 :=
          le_trans (Nat.min_le_left _ _) (Nat.min_le_left _ _)
        refine le_trans h1 ?_
        simp only [List.length_cons, Nat.succ_max_succ]
        exact Nat.succ_le_succ (ihu t)

theorem lev_self (s : String) : levenshteinDistance s s = 0 := by
  rw [levenshteinDistance_eq_dLast]
  exact dLast_self _

theorem lev_le_max (s1 s2 : String) :
    levenshteinDistance s1 s2 ≤ max s1.length s2.length := by
  rw [levenshteinDistance_eq_dLast]
  have h := dLast_le_max s1.data.reverse s2.data.reverse
  rw [List.length_reverse, List.length_reverse] at h
  exact h

theorem lcsLen_nil_right : ∀ (l : List Char), lcsLen l [] = 0 := by
  intro l
  cases l <;> rfl

theorem lcsLen_cons_cons (a b : Char) (as bs : List Char) :
    lcsLen (a :: as) (b :: bs) =
      if a = b then lcsLen as bs + 1
      else max (lcsLen as (b :: bs)) (lcsLen (a :: as) bs) := rfl

theorem lcsLen_comm : ∀ (l1 l2 : List Char), lcsLen l1 l2 = lcsLen l2 l1 := by
  intro l1
  induction l1 with
  | nil =>
    intro l2
    rw [lcsLen_nil_right]
    rfl
  | cons a as ihu =>
    intro l2
    induction l2 with
    | nil => rw [lcsLen_nil_right]; rfl
    | cons b bs iht =>
      rw [lcsLen_cons_cons, lcsLen_cons_cons]
      by_cases h : a = b
      · rw [if_pos h, if_pos h.symm, ihu bs]
      · rw [if_neg h, if_neg (fun hh => h hh.symm), ihu (b :: bs), iht, Nat.max_comm]

theorem lcsLen_le_left : ∀ (l1 l2 : List Char), lcsLen l1 l2 ≤ l1.length := by
  intro l1
  induction l1 with
  | nil => intro l2; exact le_rfl
  | cons a as ihu =>
    intro l2
    induction l2 with
    | nil => rw [lcsLen_nil_right]; exact Nat.zero_le _
    | cons b bs iht =>
      rw [lcsLen_cons_cons]
      by_cases h : a = b
      · rw [if_pos h]
        exact Nat.succ_le_succ (ihu bs)
      · rw [if_neg h]
        refine max_le ?_ iht
        exact le_trans (ihu (b :: bs)) (Nat.le_succ _)

theorem lcsLen_le_right : ∀ (l1 l2 : List Char), lcsLen l1 l2 ≤ l2.length := by
  intro l1
  induction l1 with
  | nil => intro l2; exact Nat.zero_le _
  | cons a as ihu =>
    intro l2
    induction l2 with
    | nil =>
      rw [lcsLen_nil_right]
      exact Nat.zero_le _
    | cons b bs iht =>
      rw [lcsLen_cons_cons]
      by_cases h : a = b
      · rw [if_pos h]
        exact Nat.succ_le_succ (ihu bs)
      · rw [if_neg h]
        refine max_le (ihu (b :: bs)) ?_
        exact le_trans iht (Nat.le_succ _)

theorem lcsLen_replicate (c : Char) : ∀ (n m : ℕ),
    lcsLen (List.replicate n c) (List.replicate m c) = min n m := by
  intro n
  induction n with
  | zero => intro m; simp [lcsLen]
  | succ k ih =>
    intro m
    cases m with
    | zero => simp [lcsLen_nil_right]
    | succ j =>
      rw [List.replicate_succ, List.replicate_succ, lcsLen_cons_cons, if_pos rfl, ih j,
        Nat.succ_min_succ]

theorem length_pos_of_ne_empty {a : String} (h : a ≠ "") : 0 < a.length := by
  cases a with
  | mk l =>
    cases l with
    | nil => exact absurd rfl h
    | cons c cs => simp [String.length]

theorem longer_length (a b : String) :
    (if b.length < a.length then a else b).length = max a.length b.length := by
  by_cases h : b.length < a.length
  · rw [if_pos h]
    exact (max_eq_left (le_of_lt h)).symm
  · rw [if_neg h]
    exact (max_eq_right (le_of_not_lt h)).symm

theorem css_formula (a b : String) (ha : a ≠ "") (hb : b ≠ "") :
    calculateStringSimilarity a b =
      1 - (levenshteinDistance a b : ℚ) / ((max a.length b.length : ℕ) : ℚ) := by
  have hM : 0 < max a.length b.length :=
    lt_of_lt_of_le (length_pos_of_ne_empty ha) (le_max_left _ _)
  have hMQ : (0 : ℚ) < ((max a.length b.length : ℕ) : ℚ) := by exact_mod_cast hM
  by_cases hab : a = b
  · subst hab
    rw [lev_self]
    simp [calculateStringSimilarity]
  · unfold calculateStringSimilarity
    rw [if_neg hab, if_neg (by simp [ha, hb])]
    simp only [longer_length]
    rw [if_neg (Nat.pos_iff_ne_zero.mp hM)]
    rw [sub_div, div_self (ne_of_gt hMQ)]

theorem css_empty_empty : calculateStringSimilarity "" "" = 1 := by
  simp [calculateStringSimilarity]

theorem css_empty_of_ne {a b : String} (hab : a ≠ b) (h : a = "" ∨ b = "") :
    calculateStringSimilarity a b = 0 := by
  unfold calculateStringSimilarity
  rw [if_neg hab, if_pos h]

theorem css_bounds (a b : String) :
    0 ≤ calculateStringSimilarity a b ∧ calculateStringSimilarity a b ≤ 1 := by
  by_cases h2 : a = "" ∨ b = ""
  · by_cases h1 : a = b
    · rw [show calculateStringSimilarity a b = 1 from by simp [calculateStringSimilarity, h1]]
      norm_num
    · rw [css_empty_of_ne h1 h2]
      norm_num
  · push_neg at h2
    rw [css_formula a b h2.1 h2.2]
    have hd := lev_le_max a b
    have hM : 0 < max a.length b.length :=
      lt_of_lt_of_le (length_pos_of_ne_empty h2.1) (le_max_left _ _)
    have hMQ : (0 : ℚ) < ((max a.length b.length : ℕ) : ℚ) := by exact_mod_cast hM
    constructor
    · have hle : (levenshteinDistance a b : ℚ) / ((max a.length b.length : ℕ) : ℚ) ≤ 1 := by
        rw [div_le_one hMQ]
        exact_mod_cast hd
      linarith
    · have hge : 0 ≤ (levenshteinDistance a b : ℚ) / ((max a.length b.length : ℕ) : ℚ) :=
        div_nonneg (by positivity) (le_of_lt hMQ)
      linarith

theorem jsRound_bounds {q : ℚ} (h0 : 0 ≤ q) (h100 : q ≤ 100) :
    0 ≤ jsRound q ∧ jsRound q ≤ 100 := by
  unfold jsRound
  constructor
  · exact Int.floor_nonneg.mpr (by linarith)
  · have hlt : q + 1 / 2 < (101 : ℤ) := by push_cast; linarith
    have := Int.floor_lt.mpr hlt
    omega

theorem calculateSimilarity_self (a : String) : calculateSimilarity a a = 100 := by
  simp [calculateSimilarity]

theorem calculateSimilarity_bounds (a b : String) :
    0 ≤ calculateSimilarity a b ∧ calculateSimilarity a b ≤ 100 := by
  unfold calculateSimilarity
  by_cases h1 : a = b
  · simp [h1]
  · rw [if_neg h1]
    by_cases h2 : a = "" ∨ b = ""
    · simp [h2]
    · rw [if_neg h2]
      push_neg at h2
      have hM : 0 < max a.length b.length :=
        lt_of_lt_of_le (length_pos_of_ne_empty h2.1) (le_max_left _ _)
      rw [if_pos hM]
      have hm : lcsLen a.data b.data ≤ max a.length b.length :=
        le_trans (lcsLen_le_left _ _) (le_max_left _ _)
      have hMQ : (0 : ℚ) < ((max a.length b.length : ℕ) : ℚ) := by exact_mod_cast hM
      have hdiv : (lcsLen a.data b.data : ℚ) / ((max a.length b.length : ℕ) : ℚ) ≤ 1 := by
        rw [div_le_one hMQ]
        exact_mod_cast hm
      have hdiv0 : 0 ≤ (lcsLen a.data b.data : ℚ) / ((max a.length b.length : ℕ) : ℚ) :=
        div_nonneg (by positivity) (le_of_lt hMQ)
      exact jsRound_bounds (by linarith) (by linarith)

theorem calculateSimilarity_comm (a b : String) :
    calculateSimilarity a b = calculateSimilarity b a := by
  unfold calculateSimilarity
  by_cases h1 : a = b
  · subst h1
    rfl
  · rw [if_neg h1, if_neg (show ¬b = a from fun hh => h1 hh.symm)]
    by_cases h2 : a = "" ∨ b = ""
    · rw [if_pos h2, if_pos (Or.symm h2)]
    · rw [if_neg h2, if_neg (show ¬(b = "" ∨ a = "") from fun hh => h2 (Or.symm hh))]
      rw [lcsLen_comm a.data b.data, Nat.max_comm a.length b.length]

theorem length_mk (l : List Char) : (String.mk l).length = l.length := rfl

theorem calculateSimilarity_rep199 :
    calculateSimilarity (String.mk (List.replicate 199 'a'))
      (String.mk (List.replicate 200 'a')) = 100 := by
  have hne : String.mk (List.replicate 199 'a') ≠ String.mk (List.replicate 200 'a') := by
    intro h
    have hlen := congrArg String.length h
    rw [length_mk, length_mk, List.length_replicate, List.length_replicate] at hlen
    exact absurd hlen (by decide)
  have hne1 : ¬(String.mk (List.replicate 199 'a') = "" ∨
      String.mk (List.replicate 200 'a') = "") := by
    rintro (h | h)
    · have hlen := congrArg String.length h
      rw [length_mk, List.length_replicate] at hlen
      exact absurd hlen (by decide)
    · have hlen := congrArg String.length h
      rw [length_mk, List.length_replicate] at hlen
      exact absurd hlen (by decide)
  unfold calculateSimilarity
  rw [if_neg hne, if_neg hne1]
  have hl : lcsLen (String.mk (List.replicate 199 'a')).data
      (String.mk (List.replicate 200 'a')).data = 199 := by
    show lcsLen (List.replicate 199 'a') (List.replicate 200 'a') = 199
    rw [lcsLen_replicate]
    decide
  have hm : max (String.mk (List.replicate 199 'a')).length
      (String.mk (List.replicate 200 'a')).length = 200 := by
    rw [length_mk, length_mk, List.length_replicate, List.length_replicate]
    decide
  rw [hl, hm]
  norm_num [jsRound, Int.floor_eq_iff]

theorem insertBySim_perm (s : MappingSuggestion) (l : List MappingSuggestion) :
    (insertBySim s l).Perm (s :: l) := by
  induction l with
  | nil => exact List.Perm.refl _
  | cons t ts ih =>
    unfold insertBySim
    by_cases h : s.similarity < t.similarity
    · rw [if_pos h]
      exact (ih.cons t).trans (List.Perm.swap _ _ _)
    · rw [if_neg h]

theorem sortBySimDesc_perm (l : List MappingSuggestion) : (sortBySimDesc l).Perm l := by
  induction l with
  | nil => exact List.Perm.refl _
  | cons x xs ih =>
    unfold sortBySimDesc
    exact (insertBySim_perm x (sortBySimDesc xs)).trans (ih.cons x)

theorem insertBySim_sorted (s : MappingSuggestion) (l : List MappingSuggestion)
    (h : l.Pairwise (fun x y => y.similarity ≤ x.similarity)) :
    (insertBySim s l).Pairwise (fun x y => y.similarity ≤ x.similarity) := by
  induction l with
  | nil => simp [insertBySim]
  | cons t ts ih =>
    unfold insertBySim
    rcases List.pairwise_cons.mp h with ⟨ht, hts⟩
    by_cases hc : s.similarity < t.similarity
    · rw [if_pos hc]
      refine List.pairwise_cons.mpr ⟨?_, ih hts⟩
      intro y hy
      rcases List.mem_cons.mp ((insertBySim_perm s ts).mem_iff.mp hy) with rfl | hy'
      · exact le_of_lt hc
      · exact ht y hy'
    · rw [if_neg hc]
      push_neg at hc
      refine List.pairwise_cons.mpr ⟨?_, h⟩
      intro y hy
      rcases List.mem_cons.mp hy with rfl | hy'
      · exact hc
      · exact le_trans (ht y hy') hc

theorem sortBySimDesc_sorted (l : List MappingSuggestion) :
    (sortBySimDesc l).Pairwise (fun x y => y.similarity ≤ x.similarity) := by
  induction l with
  | nil => simp [sortBySimDesc]
  | cons x xs ih =>
    unfold sortBySimDesc
    exact insertBySim_sorted x (sortBySimDesc xs) ih

theorem insertBySim_filter (s : MappingSuggestion) (l : List MappingSuggestion) (k : ℤ) :
    (insertBySim s l).filter (fun x => decide (x.similarity = k)) =
      if s.similarity = k
      then s :: l.filter (fun x => decide (x.similarity = k))
      else l.filter (fun x => decide (x.similarity = k)) := by
  induction l with
  | nil =>
    unfold insertBySim
    by_cases h : s.similarity = k
    · rw [if_pos h]
      simp [List.filter, h]
    · rw [if_neg h]
      simp [List.filter, h]
  | cons t ts ih =>
    unfold insertBySim
    by_cases hc : s.similarity < t.similarity
    · rw [if_pos hc]
      by_cases h : s.similarity = k
      · have ht : ¬ t.similarity = k := by
          intro hh
          rw [hh] at hc
          exact absurd h (ne_of_lt hc)
        rw [if_pos h, List.filter_cons_of_neg (by simp [ht]), ih, if_pos h,
          List.filter_cons_of_neg (by simp [ht])]
      · rw [if_neg h, List.filter_cons, List.filter_cons, ih, if_neg h]
    · rw [if_neg hc]
      by_cases h : s.similarity = k
      · rw [if_pos h, List.filter_cons_of_pos (by simp [h])]
      · rw [if_neg h, List.filter_cons_of_neg (by simp [h])]

theorem sortBySimDesc_filter (l : List MappingSuggestion) (k : ℤ) :
    (sortBySimDesc l).filter (fun x => decide (x.similarity = k)) =
      l.filter (fun x => decide (x.similarity = k)) := by
  induction l with
  | nil => rfl
  | cons x xs ih =>
    unfold sortBySimDesc
    rw [insertBySim_filter]
    by_cases h : x.similarity = k
    · rw [if_pos h, ih, List.filter_cons_of_pos (by simp [h])]
    · rw [if_neg h, ih, List.filter_cons_of_neg (by simp [h])]

theorem mem_suggestionsForVariant {threshold : ℤ} {baseTree varTree : List (String × String)}
    {label : String} {s : MappingSuggestion}
    (h : s ∈ suggestionsForVariant threshold baseTree varTree label) :
    treeHas baseTree s.variantFile = false ∧ treeHas varTree s.baseFile = false ∧
      threshold ≤ s.similarity ∧ s.variantLabel = label := by
  unfold suggestionsForVariant at h
  rcases List.mem_flatMap.mp h with ⟨vf, hvf, hin⟩
  rcases List.mem_filterMap.mp hin with ⟨bf, hbf, hmk⟩
  dsimp only at hmk
  by_cases hth : threshold ≤ calculateSimilarity bf.2 vf.2
  · rw [if_pos hth] at hmk
    obtain rfl := Option.some.inj hmk
    have h1' := (List.mem_filter.mp hvf).2
    have h2' := (List.mem_filter.mp hbf).2
    refine ⟨?_, ?_, hth, rfl⟩
    · simpa using h1'
    · simpa using h2'
  · rw [if_neg hth] at hmk
    cases hmk

theorem mem_suggestMappings {threshold : ℤ} {baseTree : List (String × String)}
    {variants : List (String × List (String × String))} {s : MappingSuggestion}
    (h : s ∈ suggestMappings threshold baseTree variants) :
    ∃ lv ∈ variants, s ∈ suggestionsForVariant threshold baseTree lv.2 lv.1 := by
  unfold suggestMappings at h
  have h2 := (sortBySimDesc_perm _).mem_iff.mp h
  unfold collectSuggestions at h2
  rcases List.mem_flatMap.mp h2 with ⟨v, hv, hs⟩
  exact ⟨v, hv, hs⟩

/-- The abstract left-to-right strict-improvement scan underlying the inner
loop of the pairing phase, keeping the element itself. -/
def pickStep (g : ℕ × String → ℚ) (b : Option (ℕ × String)) (p : ℕ × String) :
    Option (ℕ × String) :=
  match b with
  | none => if (0.2 : ℚ) < g p then some p else b
  | some q => if (0.2 : ℚ) < g p ∧ g q < g p then some p else b

/-- Scan a candidate list left to right, keeping the first element attaining
the running strict maximum above the `0.2` threshold. -/
def pickFold (g : ℕ × String → ℚ) (l : List (ℕ × String)) : Option (ℕ × String) :=
  l.foldl (pickStep g) none

/-- The maximal score over a candidate list (`0` when empty). -/
def maxSim (g : ℕ × String → ℚ) (l : List (ℕ × String)) : ℚ :=
  (l.map g).foldr max 0

theorem maxSim_nil (g : ℕ × String → ℚ) : maxSim g [] = 0 := rfl

theorem maxSim_cons (g : ℕ × String → ℚ) (p : ℕ × String) (l : List (ℕ × String)) :
    maxSim g (p :: l) = max (g p) (maxSim g l) := rfl

theorem maxSim_nonneg (g : ℕ × String → ℚ) (l : List (ℕ × String)) : 0 ≤ maxSim g l := by
  induction l with
  | nil => exact le_rfl
  | cons p l ih =>
    rw [maxSim_cons]
    exact le_trans ih (le_max_right _ _)

theorem maxSim_eq_zero (g : ℕ × String → ℚ) (l : List (ℕ × String))
    (h : ∀ p ∈ l, g p = 0) : maxSim g l = 0 := by
  induction l with
  | nil => rfl
  | cons p l ih =>
    rw [maxSim_cons, h p (List.mem_cons_self _ _),
      ih (fun q hq => h q (List.mem_cons.mpr (Or.inr hq)))]
    simp

theorem pickFold_from_some (g : ℕ × String → ℚ) :
    ∀ (l : List (ℕ × String)) (q : ℕ × String), (0.2 : ℚ) < g q →
      l.foldl (pickStep g) (some q) =
        if g q < maxSim g l then l.find? (fun p => decide (g p = maxSim g l))
        else some q := by
  intro l
  induction l with
  | nil =>
    intro q hq
    rw [maxSim_nil, if_neg (by linarith)]
    rfl
  | cons p l ih =>
    intro q hq
    rw [List.foldl_cons, maxSim_cons]
    by_cases hgt : g q < g p
    · have h02 : (0.2 : ℚ) < g p := lt_trans hq hgt
      rw [show pickStep g (some q) p = some p from by simp [pickStep, h02, hgt]]
      rw [ih p h02]
      by_cases hml : g p < maxSim g l
      · rw [if_pos hml, if_pos (lt_of_lt_of_le hgt (le_max_of_le_right (le_of_lt hml)))]
        rw [max_eq_right (le_of_lt hml)]
        rw [List.find?_cons_of_neg _ (by simp [ne_of_lt hml])]
      · rw [if_neg hml, if_pos (lt_of_lt_of_le hgt (le_max_left _ _))]
        rw [max_eq_left (le_of_not_lt hml)]
        rw [List.find?_cons_of_pos _ (by simp)]
    · rw [show pickStep g (some q) p = some q from by simp [pickStep, hgt]]
      rw [ih q hq]
      have hpq : g p ≤ g q := le_of_not_lt hgt
      by_cases hml : g q < maxSim g l
      · rw [if_pos hml, if_pos (lt_of_lt_of_le hml (le_max_right _ _))]
        have hpm : g p < maxSim g l := lt_of_le_of_lt hpq hml
        rw [max_eq_right (le_of_lt hpm)]
        rw [List.find?_cons_of_neg _ (by simp [ne_of_lt hpm])]
      · rw [if_neg hml]
        have hcond : ¬ g q < max (g p) (maxSim g l) := by
          rw [not_lt, max_le_iff]
          exact ⟨hpq, le_of_not_lt hml⟩
        rw [if_neg hcond]

theorem pickFold_eq (g : ℕ × String → ℚ) (l : List (ℕ × String))
    (hg : ∀ p ∈ l, 0 ≤ g p) :
    pickFold g l =
      if (0.2 : ℚ) < maxSim g l then l.find? (fun p => decide (g p = maxSim g l))
      else none := by
  induction l with
  | nil =>
    rw [maxSim_nil, if_neg (by norm_num)]
    rfl
  | cons p l ih =>
    unfold pickFold
    rw [List.foldl_cons, maxSim_cons]
    by_cases h02 : (0.2 : ℚ) < g p
    · rw [show pickStep g none p = some p from by simp [pickStep, h02]]
      rw [pickFold_from_some g l p h02]
      by_cases hml : g p < maxSim g l
      · rw [if_pos hml, if_pos (lt_of_lt_of_le h02 (le_max_of_le_right (le_of_lt hml)))]
        rw [max_eq_right (le_of_lt hml)]
        rw [List.find?_cons_of_neg _ (by simp [ne_of_lt hml])]
      · rw [if_neg hml, if_pos (lt_of_lt_of_le h02 (le_max_left _ _))]
        rw [max_eq_left (le_of_not_lt hml)]
        rw [List.find?_cons_of_pos _ (by simp)]
    · rw [show pickStep g none p = none from by simp [pickStep, h02]]
      have hrest := ih (fun q hq => hg q (List.mem_cons.mpr (Or.inr hq)))
      unfold pickFold at hrest
      rw [hrest]
      have hp02 : g p ≤ (0.2 : ℚ) := le_of_not_lt h02
      by_cases hml : (0.2 : ℚ) < maxSim g l
      · rw [if_pos hml, if_pos (lt_of_lt_of_le hml (le_max_right _ _))]
        have hpm : g p < maxSim g l := lt_of_le_of_lt hp02 hml
        rw [max_eq_right (le_of_lt hpm)]
        rw [List.find?_cons_of_neg _ (by simp [ne_of_lt hpm])]
      · rw [if_neg hml]
        have hcond : ¬ (0.2 : ℚ) < max (g p) (maxSim g l) := by
          rw [not_lt, max_le_iff]
          exact ⟨hp02, le_of_not_lt hml⟩
        rw [if_neg hcond]

theorem foldl_congr_on {α β : Type} (l : List α) (f g : β → α → β) (b : β)
    (h : ∀ b' a, a ∈ l → f b' a = g b' a) : l.foldl f b = l.foldl g b := by
  induction l generalizing b with
  | nil => rfl
  | cons x xs ih =>
    rw [List.foldl_cons, List.foldl_cons, h b x (List.mem_cons_self _ _)]
    exact ih _ (fun b' a ha => h b' a (List.mem_cons.mpr (Or.inr ha)))

theorem foldl_filter_id {α β : Type} (p : α → Bool) (op : β → α → β) :
    ∀ (l : List α) (b : β), (∀ b' a, a ∈ l → p a = false → op b' a = b') →
      l.foldl op b = (l.filter p).foldl op b := by
  intro l
  induction l with
  | nil => intro b _; rfl
  | cons a l ih =>
    intro b hid
    rw [List.foldl_cons]
    cases hpa : p a with
    | true =>
      rw [List.filter_cons_of_pos hpa, List.foldl_cons]
      exact ih (op b a) (fun b' x hx => hid b' x (List.mem_cons.mpr (Or.inr hx)))
    | false =>
      rw [List.filter_cons_of_neg (by simp [hpa]), hid b a (List.mem_cons_self _ _) hpa]
      exact ih b (fun b' x hx => hid b' x (List.mem_cons.mpr (Or.inr hx)))

theorem foldl_store_score (g : ℕ × String → ℚ) :
    ∀ (l : List (ℕ × String)) (o : Option (ℕ × String)),
      l.foldl
        (fun b p =>
          match b with
          | none => if (0.2 : ℚ) < g p then some (p.1, g p) else b
          | some b0 => if (0.2 : ℚ) < g p ∧ b0.2 < g p then some (p.1, g p) else b)
        (o.map (fun p => (p.1, g p))) =
      (l.foldl (pickStep g) o).map (fun p => (p.1, g p)) := by
  intro l
  induction l with
  | nil => intro o; rfl
  | cons a l ih =>
    intro o
    rw [List.foldl_cons, List.foldl_cons]
    have hstep :
        (match o.map (fun p => (p.1, g p)) with
          | none => if (0.2 : ℚ) < g a then some (a.1, g a) else o.map (fun p => (p.1, g p))
          | some b0 =>
            if (0.2 : ℚ) < g a ∧ b0.2 < g a then some (a.1, g a)
            else o.map (fun p => (p.1, g p)))
        = (pickStep g o a).map (fun p => (p.1, g p)) := by
      cases o with
      | none =>
        by_cases h : (0.2 : ℚ) < g a
        · simp [pickStep, h]
        · simp [pickStep, h]
      | some q =>
        by_cases h : (0.2 : ℚ) < g a ∧ g q < g a
        · simp [pickStep, h]
        · simp [pickStep, h]
    rw [hstep]
    exact ih (pickStep g o a)

theorem maxSim_filter_ne (g : ℕ × String → ℚ) (l : List (ℕ × String))
    (p : ℕ × String → Bool) (h : ∀ a ∈ l, p a = false → g a = 0) :
    maxSim g l = maxSim g (l.filter p) := by
  induction l with
  | nil => rfl
  | cons a l ih =>
    have ih' := ih (fun x hx => h x (List.mem_cons.mpr (Or.inr hx)))
    cases hpa : p a with
    | true => rw [maxSim_cons, List.filter_cons_of_pos hpa, maxSim_cons, ih']
    | false =>
      rw [maxSim_cons, h a (List.mem_cons_self _ _) hpa,
        List.filter_cons_of_neg (by simp [hpa]), ih',
        max_eq_right (maxSim_nonneg g _)]

theorem find?_filter_subset {α : Type} (l : List α) (p q : α → Bool)
    (h : ∀ a ∈ l, q a = true → p a = true) :
    l.find? q = (l.filter p).find? q := by
  induction l with
  | nil => rfl
  | cons a l ih =>
    have ih' := ih (fun x hx hq => h x (List.mem_cons.mpr (Or.inr hx)) hq)
    cases hqa : q a with
    | true =>
      rw [List.filter_cons_of_pos (h a (List.mem_cons_self _ _) hqa),
        List.find?_cons_of_pos _ hqa, List.find?_cons_of_pos _ hqa]
    | false =>
      cases hpa : p a with
      | true =>
        rw [List.filter_cons_of_pos hpa, List.find?_cons_of_neg _ (by simp [hqa]),
          List.find?_cons_of_neg _ (by simp [hqa]), ih']
      | false =>
        rw [List.filter_cons_of_neg (by simp [hpa]),
          List.find?_cons_of_neg _ (by simp [hqa]), ih']

theorem css_empty_right {r : String} (hr : r ≠ "") :
    calculateStringSimilarity r "" = 0 :=
  css_empty_of_ne hr (Or.inr rfl)

theorem css_empty_left {a : String} (ha : a ≠ "") :
    calculateStringSimilarity "" a = 0 :=
  css_empty_of_ne (fun h => ha h.symm) (Or.inl rfl)

theorem snd_mem_of_mem_enum {α : Type} {l : List α} {q : ℕ × α} (h : q ∈ l.enum) :
    q.2 ∈ l := by
  have h2 := List.mem_map_of_mem Prod.snd h
  rwa [List.enum_map_snd] at h2

/-- The similarity of a remove line against an indexed add line. -/
def simOf (r : String) : ℕ × String → ℚ := fun p => calculateStringSimilarity r p.2

/-- Modelled from the spec: the highest `calculateStringSimilarity` between
the remove line `r` and the not-yet-used add lines. -/
def bestSim (r : String) (adds : List String) (used : List ℕ) : ℚ :=
  maxSim (simOf r) (adds.enum.filter (fun p => decide (p.1 ∉ used)))

/-- Modelled from the spec (§4.3 step 2): select the not-yet-used add line of
highest `calculateStringSimilarity` (the earliest among equals), provided that
similarity strictly exceeds `0.2`; otherwise nothing. -/
def specBest (r : String) (adds : List String) (used : List ℕ) : Option (ℕ × String) :=
  if (0.2 : ℚ) < bestSim r adds used then
    (adds.enum.filter (fun p => decide (p.1 ∉ used))).find?
      (fun p => decide (simOf r p = bestSim r adds used))
  else none

/-- Modelled from the spec: each remove line, in its original order, becomes a
Modify entry with its selected add line (whose index leaves candidacy), or
stays a Remove entry when no candidate exceeds the threshold. -/
def specRemoves (adds : List String) : List String → List ℕ → List LineDiffEntry × List ℕ
  | [], used => ([], used)
  | r :: rs, used =>
    match specBest r adds used with
    | some pair =>
      let rest := specRemoves adds rs (pair.1 :: used)
      (⟨some r, some pair.2, DiffType.modify⟩ :: rest.1, rest.2)
    | none =>
      let rest := specRemoves adds rs used
      (⟨some r, none, DiffType.remove⟩ :: rest.1, rest.2)

/-- Modelled from the spec: the treatment of one maximal Remove-run/Add-run
block — greedy pairing of the removes followed by the add lines never
selected, in their original relative order. -/
def specRun (removes adds : List String) : List LineDiffEntry :=
  let p := specRemoves adds removes []
  p.1 ++ (adds.enum.filter (fun q => decide (q.1 ∉ p.2))).map (fun q => mkAddE q.2)

theorem specBest_empty (adds : List String) (used : List ℕ) (h : "" ∉ adds) :
    specBest "" adds used = none := by
  unfold specBest
  have hbs : bestSim "" adds used = 0 := by
    unfold bestSim
    apply maxSim_eq_zero
    intro p hp
    have hmem : p.2 ∈ adds := snd_mem_of_mem_enum (List.mem_of_mem_filter hp)
    have hne : p.2 ≠ "" := fun hh => h (hh ▸ hmem)
    exact css_empty_left hne
  rw [hbs, if_neg (by norm_num)]

theorem specBest_some (r : String) (adds : List String) (used : List ℕ)
    (idx : ℕ) (a : String) (h : specBest r adds used = some (idx, a)) :
    adds[idx]? = some a ∧ (0.2 : ℚ) < calculateStringSimilarity r a ∧ idx ∉ used := by
  unfold specBest at h
  by_cases hM : (0.2 : ℚ) < bestSim r adds used
  · rw [if_pos hM] at h
    have hmem := List.mem_of_find?_eq_some h
    have hpred := List.find?_some h
    have hge : adds[idx]? = some a :=
      List.mem_enum_iff_getElem?.mp (List.mem_of_mem_filter hmem)
    have hused : idx ∉ used := by
      have := (List.mem_filter.mp hmem).2
      simpa using this
    have hsim : calculateStringSimilarity r a = bestSim r adds used := by
      simpa [simOf] using hpred
    exact ⟨hge, hsim ▸ hM, hused⟩
  · rw [if_neg hM] at h
    cases h

theorem findBestMatch_spec (r : String) (adds : List String) (used : List ℕ)
    (hr : r = "" → "" ∉ adds) :
    findBestMatch (some r) (adds.map mkAddE) used =
      (specBest r adds used).map (fun p => (p.1, calculateStringSimilarity r p.2)) := by
  by_cases hre : r = ""
  · subst hre
    have hnone : findBestMatch (some "") (adds.map mkAddE) used = none := by
      unfold findBestMatch
      refine foldl_invariant (fun o => o = none) _ _ none rfl ?_
      intro b p hp hb
      subst hb
      by_cases hu : p.1 ∈ used
      · rw [if_pos hu]
      · rw [if_neg hu]
        cases hv : p.2.variant with
        | none => simp [hv]
        | some vs => simp [hv]
    rw [hnone, specBest_empty adds used (hr rfl)]
    rfl
  · unfold findBestMatch
    rw [List.enum_map, List.foldl_map]
    have hstep1 : (adds.enum).foldl
        (fun best q =>
          if (Prod.map id mkAddE q).1 ∈ used then best
          else
            match some r, (Prod.map id mkAddE q).2.variant with
            | some bs, some vs =>
              if bs ≠ "" ∧ vs ≠ "" then
                let sim := calculateStringSimilarity bs vs
                match best with
                | none =>
                  if (0.2 : ℚ) < sim then some ((Prod.map id mkAddE q).1, sim) else best
                | some b =>
                  if (0.2 : ℚ) < sim ∧ b.2 < sim then some ((Prod.map id mkAddE q).1, sim)
                  else best
              else best
            | _, _ => best)
        none =
      (adds.enum).foldl
        (fun best q =>
          if q.1 ∈ used then best
          else if q.2 = "" then best
          else
            match best with
            | none =>
              if (0.2 : ℚ) < simOf r q then some (q.1, simOf r q) else best
            | some b0 =>
              if (0.2 : ℚ) < simOf r q ∧ b0.2 < simOf r q then some (q.1, simOf r q)
              else best)
        none := by
      refine foldl_congr_on _ _ _ none ?_
      intro b q _
      by_cases hu : q.1 ∈ used
      · simp [Prod.map, hu]
      · by_cases hq2 : q.2 = ""
        · simp [Prod.map, hu, mkAddE, hq2]
        · simp [Prod.map, hu, mkAddE, hq2, hre, simOf]
    rw [hstep1]
    have hstep2 := foldl_filter_id
      (fun q : ℕ × String => decide (q.1 ∉ used) && decide (q.2 ≠ ""))
      (fun best q =>
        if q.1 ∈ used then best
        else if q.2 = "" then best
        else
          match best with
          | none =>
            if (0.2 : ℚ) < simOf r q then some (q.1, simOf r q) else best
          | some b0 =>
            if (0.2 : ℚ) < simOf r q ∧ b0.2 < simOf r q then some (q.1, simOf r q)
            else best)
      adds.enum none ?arg
    case arg =>
      intro b' q _ hpq
      dsimp only
      simp only [Bool.and_eq_false_iff, decide_eq_false_iff_not, not_not] at hpq
      rcases hpq with hq | hq
      · rw [if_pos hq]
      · by_cases hu : q.1 ∈ used
        · rw [if_pos hu]
        · rw [if_neg hu, if_pos hq]
    rw [hstep2]
    have hfilter_eq :
        adds.enum.filter (fun q => decide (q.1 ∉ used) && decide (q.2 ≠ "")) =
          (adds.enum.filter (fun p => decide (p.1 ∉ used))).filter
            (fun q => decide (q.2 ≠ "")) := by
      rw [List.filter_filter]
      refine List.filter_congr ?_
      intro x _
      rw [Bool.and_comm]
    rw [hfilter_eq]
    have hstep3 : ((adds.enum.filter (fun p => decide (p.1 ∉ used))).filter
        (fun q => decide (q.2 ≠ ""))).foldl
        (fun best q =>
          if q.1 ∈ used then best
          else if q.2 = "" then best
          else
            match best with
            | none =>
              if (0.2 : ℚ) < simOf r q then some (q.1, simOf r q) else best
            | some b0 =>
              if (0.2 : ℚ) < simOf r q ∧ b0.2 < simOf r q then some (q.1, simOf r q)
              else best)
        none =
      ((adds.enum.filter (fun p => decide (p.1 ∉ used))).filter
        (fun q => decide (q.2 ≠ ""))).foldl
        (fun b p =>
          match b with
          | none => if (0.2 : ℚ) < simOf r p then some (p.1, simOf r p) else b
          | some b0 =>
            if (0.2 : ℚ) < simOf r p ∧ b0.2 < simOf r p then some (p.1, simOf r p)
            else b)
        none := by
      refine foldl_congr_on _ _ _ none ?_
      intro b q hq
      dsimp only
      have hq1 := (List.mem_filter.mp (List.mem_of_mem_filter hq)).2
      have hq2 := (List.mem_filter.mp hq).2
      have hu : q.1 ∉ used := by simpa using hq1
      have hne : q.2 ≠ "" := by simpa using hq2
      rw [if_neg hu, if_neg hne]
    rw [hstep3]
    have hstore := foldl_store_score (simOf r)
      ((adds.enum.filter (fun p => decide (p.1 ∉ used))).filter
        (fun q => decide (q.2 ≠ ""))) none
    rw [show (Option.map (fun p : ℕ × String => (p.1, simOf r p)) none)
        = (none : Option (ℕ × ℚ)) from rfl] at hstore
    rw [hstore]
    have hpick := pickFold_eq (simOf r)
      ((adds.enum.filter (fun p => decide (p.1 ∉ used))).filter
        (fun q => decide (q.2 ≠ "")))
      (fun p _ => (css_bounds r p.2).1)
    unfold pickFold at hpick
    rw [hpick]
    have hbm : bestSim r adds used =
        maxSim (simOf r) ((adds.enum.filter (fun p => decide (p.1 ∉ used))).filter
          (fun q => decide (q.2 ≠ ""))) := by
      unfold bestSim
      exact maxSim_filter_ne (simOf r) _ _ (fun a _ ha => by
        have : a.2 = "" := by simpa using ha
        simpa [simOf, this] using css_empty_right hre)
    unfold specBest
    rw [hbm]
    by_cases hM : (0.2 : ℚ) < maxSim (simOf r)
        ((adds.enum.filter (fun p => decide (p.1 ∉ used))).filter
          (fun q => decide (q.2 ≠ "")))
    · rw [if_pos hM, if_pos hM]
      congr 1
      refine (find?_filter_subset _ _ _ ?_).symm
      intro a _ hpred
      have hsim : simOf r a = maxSim (simOf r)
          ((adds.enum.filter (fun p => decide (p.1 ∉ used))).filter
            (fun q => decide (q.2 ≠ ""))) := by simpa using hpred
      have hpos : (0 : ℚ) < simOf r a := by
        rw [hsim]
        linarith
      by_cases ha2 : a.2 = ""
      · rw [show simOf r a = 0 from by simpa [simOf, ha2] using css_empty_right hre] at hpos
        exact absurd hpos (by norm_num)
      · simpa using ha2
    · rw [if_neg hM, if_neg hM]
      rfl

theorem processRemoves_spec (adds : List String) :
    ∀ (rs : List String) (used : List ℕ), ("" ∈ rs → "" ∉ adds) →
      processRemoves (adds.map mkAddE) (rs.map mkRemoveE) used = specRemoves adds rs used := by
  intro rs
  induction rs with
  | nil => intro used _; rfl
  | cons r rs ih =>
    intro used hyp
    have hr : r = "" → "" ∉ adds := fun hh => hyp (hh ▸ List.mem_cons_self _ _)
    have hrs : "" ∈ rs → "" ∉ adds := fun hh => hyp (List.mem_cons.mpr (Or.inr hh))
    have hbase : (mkRemoveE r).base = some r := rfl
    rw [List.map_cons]
    cases hsb : specBest r adds used with
    | none =>
      have hfb : findBestMatch (some r) (adds.map mkAddE) used = none := by
        rw [findBestMatch_spec r adds used hr, hsb]
        rfl
      simp only [processRemoves, hbase, hfb, specRemoves, hsb, ih used hrs]
      rfl
    | some pair =>
      obtain ⟨idx, a⟩ := pair
      have hfb : findBestMatch (some r) (adds.map mkAddE) used =
          some (idx, calculateStringSimilarity r a) := by
        rw [findBestMatch_spec r adds used hr, hsb]
        rfl
      obtain ⟨hga, hsim, hused⟩ := specBest_some r adds used idx a hsb
      have hrne : r ≠ "" := by
        intro hh
        subst hh
        rw [specBest_empty adds used (hr rfl)] at hsb
        cases hsb
      have hane : a ≠ "" := by
        intro hh
        subst hh
        rw [css_empty_right hrne] at hsim
        exact absurd hsim (by norm_num)
      have hga' : (adds.map mkAddE)[idx]? = some (mkAddE a) := by
        rw [List.getElem?_map, hga]
        rfl
      simp only [processRemoves, hbase, hfb, hga', mkAddE, specRemoves, hsb,
        if_pos (And.intro hrne hane), ih (idx :: used) hrs]

theorem processRun_spec (removes adds : List String)
    (h : "" ∈ removes → "" ∉ adds) :
    processRun (removes.map mkRemoveE) (adds.map mkAddE) = specRun removes adds := by
  unfold processRun specRun unusedOf
  rw [processRemoves_spec adds removes [] h]
  dsimp only
  congr 1
  rw [List.enum_map, List.filter_map, List.map_map]
  have hpred : ((fun q : ℕ × LineDiffEntry => decide (q.1 ∉ (specRemoves adds removes []).2))
      ∘ Prod.map id mkAddE) = (fun q : ℕ × String => decide (q.1 ∉ (specRemoves adds removes []).2)) := by
    funext q
    rfl
  rw [hpred]
  rfl

/-- Newline-separated concatenation of a line list, the reading of
"concatenating ... as newline-separated lines". -/
def joinLines (l : List String) : String := String.intercalate "\n" l

theorem goodShape_of_strongModify {e : LineDiffEntry} (h : strongModify e) :
    goodShape e := by
  obtain ⟨ht, b, v, hb, hv, _, _⟩ := h
  unfold goodShape
  rw [ht]
  exact ⟨b, v, hb, hv⟩

theorem computeLineDiff_baseLines (b v : String) :
    baseLines (computeLineDiff b v) = splitTrim b := by
  unfold computeLineDiff
  rw [pairUp_baseLines,
    baseLines_alignDiff _ _ _ (lcs_sublist (splitTrim b) (splitTrim v)).1]

theorem computeLineDiff_variant_perm (b v : String) :
    (variantLines (computeLineDiff b v)).Perm (splitTrim v) := by
  unfold computeLineDiff
  have h := pairUp_variant_perm
    (alignDiff (lcs (splitTrim b) (splitTrim v)) (splitTrim b) (splitTrim v))
  rwa [variantLines_alignDiff _ _ _ (lcs_sublist (splitTrim b) (splitTrim v)).2] at h

theorem computeLineDiff_goodShape (b v : String) :
    ∀ e ∈ computeLineDiff b v, goodShape e := by
  intro e he
  unfold computeLineDiff at he
  rcases pairUp_mem _ e he with h | h
  · exact alignDiff_goodShape _ _ _ e h
  · exact goodShape_of_strongModify h

theorem computeLineDiff_modify_nonempty (b v : String) :
    ∀ e ∈ computeLineDiff b v, e.type = DiffType.modify → strongModify e := by
  intro e he ht
  unfold computeLineDiff at he
  rcases pairUp_mem _ e he with h | h
  · exact absurd ht (alignDiff_no_modify _ _ _ e h)
  · exact h

theorem computeLineDiff_length (b v : String) :
    (computeLineDiff b v).length ≤ (splitTrim b).length + (splitTrim v).length := by
  unfold computeLineDiff
  refine le_trans (pairUp_length _) ?_
  exact alignDiff_length _ _ _ (lcs_sublist (splitTrim b) (splitTrim v)).1
    (lcs_sublist (splitTrim b) (splitTrim v)).2

theorem css_xyyy_wzzz : calculateStringSimilarity "xyyy" "wzzz" = 0 := by
  rw [css_formula "xyyy" "wzzz" (by decide) (by decide),
    show levenshteinDistance "xyyy" "wzzz" = 4 from by decide,
    show max (String.length "xyyy") (String.length "wzzz") = 4 from by decide]
  norm_num

theorem css_xyyy_wyyy : calculateStringSimilarity "xyyy" "wyyy" = 3 / 4 := by
  rw [css_formula "xyyy" "wyyy" (by decide) (by decide),
    show levenshteinDistance "xyyy" "wyyy" = 1 from by decide,
    show max (String.length "xyyy") (String.length "wyyy") = 4 from by decide]
  norm_num

theorem css_xzzz_wzzz : calculateStringSimilarity "xzzz" "wzzz" = 3 / 4 := by
  rw [css_formula "xzzz" "wzzz" (by decide) (by decide),
    show levenshteinDistance "xzzz" "wzzz" = 1 from by decide,
    show max (String.length "xzzz") (String.length "wzzz") = 4 from by decide]
  norm_num

theorem computeLineDiff_reorder_eval :
    computeLineDiff "xyyy\nxzzz\n" "wzzz\nwyyy" =
      [⟨some "xyyy", some "wyyy", DiffType.modify⟩,
       ⟨some "xzzz", some "wzzz", DiffType.modify⟩] := by
  show pairUp (alignDiff (lcs (splitTrim "xyyy\nxzzz\n") (splitTrim "wzzz\nwyyy"))
    (splitTrim "xyyy\nxzzz\n") (splitTrim "wzzz\nwyyy")) = _
  rw [show splitTrim "xyyy\nxzzz\n" = ["xyyy", "xzzz"] from by decide,
    show splitTrim "wzzz\nwyyy" = ["wzzz", "wyyy"] from by decide,
    show lcs ["xyyy", "xzzz"] ["wzzz", "wyyy"] = [] from by decide]
  show pairUp [mkRemoveE "xyyy", mkRemoveE "xzzz", mkAddE "wzzz", mkAddE "wyyy"] = _
  norm_num +decide [pairUp, pairUpGo, processRun, processRemoves, findBestMatch, unusedOf,
    mkRemoveE, mkAddE, List.enum, List.enumFrom, List.takeWhile, List.dropWhile,
    List.filter, css_xyyy_wzzz, css_xyyy_wyyy, css_xzzz_wzzz]

theorem css_abc_abd : calculateStringSimilarity "abc" "abd" = 2 / 3 := by
  rw [css_formula "abc" "abd" (by decide) (by decide),
    show levenshteinDistance "abc" "abd" = 1 from by decide,
    show max (String.length "abc") (String.length "abd") = 3 from by decide]
  norm_num

theorem computeLineDiff_abc_eval :
    computeLineDiff "abc" "abd" = [⟨some "abc", some "abd", DiffType.modify⟩] := by
  show pairUp (alignDiff (lcs (splitTrim "abc") (splitTrim "abd"))
    (splitTrim "abc") (splitTrim "abd")) = _
  rw [show splitTrim "abc" = ["abc"] from by decide,
    show splitTrim "abd" = ["abd"] from by decide,
    show lcs ["abc"] ["abd"] = [] from by decide]
  show pairUp [mkRemoveE "abc", mkAddE "abd"] = _
  norm_num +decide [pairUp, pairUpGo, processRun, processRemoves, findBestMatch, unusedOf,
    mkRemoveE, mkAddE, List.enum, List.enumFrom, List.takeWhile, List.dropWhile,
    List.filter, css_abc_abd]

/-- C1, counterexample. The claim as stated is false: for base `"xyyy\nxzzz\n"`
and variant `"wzzz\nwyyy"`, joining the `base` fields of Equal/Remove/Modify
entries with newlines gives `"xyyy\nxzzz"`, not the base text (the trailing
newline is lost), and joining the `variant` fields of Equal/Add/Modify gives
`"wyyy\nwzzz"`, not the variant text (the greedy modify-pairing reorders the
add lines). -/
theorem c1_counterexample :
    joinLines (baseLines (computeLineDiff "xyyy\nxzzz\n" "wzzz\nwyyy")) ≠ "xyyy\nxzzz\n" ∧
    joinLines (variantLines (computeLineDiff "xyyy\nxzzz\n" "wzzz\nwyyy")) ≠ "wzzz\nwyyy" := by
  rw [computeLineDiff_reorder_eval]
  exact ⟨by decide, by decide⟩

/-- C1 (amended): for every pair of base and variant texts, the `base` fields
of the Equal, Remove and Modify entries of `computeLineDiff`, in order, are
exactly the line list of the base text (its newline split with the trailing
empty artifact trimmed, so the base text is reconstructed up to one trailing
newline), and the `variant` fields of the Equal, Add and Modify entries are a
permutation of the line list of the variant text (the modify-pairing can
reorder, but never loses or duplicates, variant lines). -/
theorem c1_reconstruction (b v : String) :
    baseLines (computeLineDiff b v) = splitTrim b ∧
    (variantLines (computeLineDiff b v)).Perm (splitTrim v) :=
  ⟨computeLineDiff_baseLines b v, computeLineDiff_variant_perm b v⟩

/-- C2: within one maximal Remove-run/Add-run block, the code's processing
(`processRun`, the run handling of `computeLineDiff`) agrees exactly with the
specification's description (`specRun`): each remove line, in original order,
is merged with the not-yet-used add line of highest
`calculateStringSimilarity` precisely when that similarity strictly exceeds
`0.2`, the consumed add index leaves candidacy, and never-selected add lines
are emitted afterwards in their original relative order.  The hypothesis
excludes only the degenerate configuration (an empty line removed and an empty
line added in the same run) that a shortest-edit-script diff can never
produce, since identical lines are matched as Equal. -/
theorem c2_pairing_matches_spec (removes adds : List String)
    (h : ¬("" ∈ removes ∧ "" ∈ adds)) :
    processRun (removes.map mkRemoveE) (adds.map mkAddE) = specRun removes adds :=
  processRun_spec removes adds (fun hr ha => h ⟨hr, ha⟩)

/-- C2, witness at a concrete run. -/
theorem c2_witness :
    processRun (["abc"].map mkRemoveE) (["abd"].map mkAddE) = specRun ["abc"] ["abd"] :=
  c2_pairing_matches_spec ["abc"] ["abd"] (by decide)

/-- C3, counterexample. `calculateSimilarity` returns `100` for a 199-character
blob against a 200-character blob that are not byte-identical, because
`Math.round((199/200)*100) = Math.round(99.5) = 100`; the "only if" half of
the claim is false. -/
theorem c3_counterexample :
    calculateSimilarity (String.mk (List.replicate 199 'a'))
        (String.mk (List.replicate 200 'a')) = 100 ∧
      String.mk (List.replicate 199 'a') ≠ String.mk (List.replicate 200 'a') := by
  refine ⟨calculateSimilarity_rep199, ?_⟩
  intro h
  have hlen := congrArg String.length h
  rw [length_mk, length_mk, List.length_replicate, List.length_replicate] at hlen
  exact absurd hlen (by decide)

/-- C3 (amended): for every pair of text blobs, `calculateSimilarity` returns
an integer in `0..100`, and it returns `100` if the two blobs are
byte-identical (but `100` can also be returned for non-identical blobs whose
rounded matched ratio reaches `100`). -/
theorem c3_range_and_identity (a b : String) :
    0 ≤ calculateSimilarity a b ∧ calculateSimilarity a b ≤ 100 ∧
      (a = b → calculateSimilarity a b = 100) :=
  ⟨(calculateSimilarity_bounds a b).1, (calculateSimilarity_bounds a b).2,
    fun h => h ▸ calculateSimilarity_self a⟩

/-- C3, witness for the identity direction. -/
theorem c3_witness : calculateSimilarity "x" "x" = 100 :=
  (c3_range_and_identity "x" "x").2.2 rfl

/-- C4, counterexample. `calculateStringSimilarity("", "")` returns `1`, not
`0`: the `str1 === str2` branch fires before the emptiness check. -/
theorem c4_counterexample :
    calculateStringSimilarity "" "" = 1 ∧ (1 : ℚ) ≠ 0 :=
  ⟨css_empty_empty, by norm_num⟩

/-- C4 (amended): two empty strings have similarity `1` (they are equal, and
equal strings return `1`); one empty and one non-empty string have similarity
`0`; and for both-non-empty pairs the result is
`1 - levenshtein(a,b) / max(len(a), len(b))`. -/
theorem c4_similarity_definition (a b : String) :
    (a = "" ∧ b = "" → calculateStringSimilarity a b = 1) ∧
    (a ≠ b ∧ (a = "" ∨ b = "") → calculateStringSimilarity a b = 0) ∧
    (a ≠ "" ∧ b ≠ "" → calculateStringSimilarity a b =
      1 - (levenshteinDistance a b : ℚ) / ((max a.length b.length : ℕ) : ℚ)) := by
  refine ⟨?_, ?_, ?_⟩
  · rintro ⟨rfl, rfl⟩
    exact css_empty_empty
  · rintro ⟨hne, h⟩
    exact css_empty_of_ne hne h
  · rintro ⟨ha, hb⟩
    exact css_formula a b ha hb

/-- C4, witness for the edit-distance formula. -/
theorem c4_witness : calculateStringSimilarity "ab" "ax" =
    1 - (levenshteinDistance "ab" "ax" : ℚ) /
      ((max (String.length "ab") (String.length "ax") : ℕ) : ℚ) :=
  (c4_similarity_definition "ab" "ax").2.2 ⟨by decide, by decide⟩

/-- C5, counterexample. Generation order enumerates VARIANT files in the outer
loop and BASE files in the inner loop, not the other way round as claimed:
with two base files and two variant files of pairwise equal similarity, the
returned order is `(b1,v1), (b2,v1), (b1,v2), (b2,v2)`, not the claimed
base-outer order `(b1,v1), (b1,v2), (b2,v1), (b2,v2)`. -/
theorem c5_counterexample :
    (suggestMappings 50 [("b1", "x"), ("b2", "x")]
        [("L", [("v1", "x"), ("v2", "x")])]).map
      (fun s => (s.baseFile, s.variantFile)) ≠
      [("b1", "v1"), ("b1", "v2"), ("b2", "v1"), ("b2", "v2")] := by decide

/-- C5 (amended): the mapping-suggestion list is sorted by similarity
descending, is a permutation of the generated suggestions, and suggestions of
equal similarity appear in their generation order — which enumerates variant
files in the outer loop and base files in the inner loop
(`collectSuggestions`); the whole ordering is a deterministic function of the
trees. -/
theorem c5_sorted_stable (threshold : ℤ) (baseTree : List (String × String))
    (variants : List (String × List (String × String))) :
    (suggestMappings threshold baseTree variants).Pairwise
      (fun x y => y.similarity ≤ x.similarity) ∧
    (suggestMappings threshold baseTree variants).Perm
      (collectSuggestions threshold baseTree variants) ∧
    ∀ k : ℤ, (suggestMappings threshold baseTree variants).filter
        (fun x => decide (x.similarity = k)) =
      (collectSuggestions threshold baseTree variants).filter
        (fun x => decide (x.similarity = k)) :=
  ⟨sortBySimDesc_sorted _, sortBySimDesc_perm _, fun k => sortBySimDesc_filter _ k⟩

/-- C6: a suggestion is only produced for a pair where the variant file's path
is not a key of the base tree and the base file's path is not a key of the
variant tree; consequently no suggestion mentions a path present in both trees
under the same name. -/
theorem c6_rename_only (threshold : ℤ) (baseTree varTree : List (String × String))
    (label : String) (s : MappingSuggestion)
    (h : s ∈ suggestMappings threshold baseTree [(label, varTree)]) :
    treeHas baseTree s.variantFile = false ∧ treeHas varTree s.baseFile = false ∧
    ∀ p : String, treeHas baseTree p = true → treeHas varTree p = true →
      s.baseFile ≠ p ∧ s.variantFile ≠ p := by
  obtain ⟨lv, hlv, hs⟩ := mem_suggestMappings h
  rcases List.mem_singleton.mp hlv with rfl
  obtain ⟨h1, h2, _, _⟩ := mem_suggestionsForVariant hs
  refine ⟨h1, h2, ?_⟩
  intro p hbp hvp
  constructor
  · intro hh
    rw [hh] at h2
    rw [h2] at hvp
    cases hvp
  · intro hh
    rw [hh] at h1
    rw [h1] at hbp
    cases hbp

/-- C6, witness at a concrete suggestion. -/
theorem c6_witness :
    treeHas [("a.java", "hello")] "b.java" = false ∧
    treeHas [("b.java", "hello")] "a.java" = false :=
  ⟨(c6_rename_only 50 [("a.java", "hello")] [("b.java", "hello")] "L"
      ⟨"a.java", "b.java", "L", 100⟩ (by decide)).1,
   (c6_rename_only 50 [("a.java", "hello")] [("b.java", "hello")] "L"
      ⟨"a.java", "b.java", "L", 100⟩ (by decide)).2.1⟩

/-- C7: every entry of `computeLineDiff` satisfies the shape invariant: Equal
and Modify entries carry both fields (Equal with `base = variant`), Add only
`variant`, Remove only `base`. -/
theorem c7_shape_invariant (b v : String) (e : LineDiffEntry)
    (h : e ∈ computeLineDiff b v) : goodShape e :=
  computeLineDiff_goodShape b v e h

/-- C7, witness at a concrete diff entry. -/
theorem c7_witness : goodShape ⟨some "a", some "a", DiffType.equal⟩ :=
  c7_shape_invariant "a" "a" ⟨some "a", some "a", DiffType.equal⟩ (by decide)

/-- C8: the engine functions are total — formalized by exhibiting, for all
inputs including empty strings, that the Levenshtein matrix's final row has
exactly `str1.length + 1` entries (so the source's `matrix[str2.length]![str1.length]!`
access is in bounds), that `levenshteinDistance` is bounded by the longer
length, that `calculateStringSimilarity` always yields a value in `[0, 1]`,
and that the pairing scan terminates with an output no longer than its input
line lists. -/
theorem c8_totality (s1 s2 : String) :
    (levFinalRow s1 s2).length = s1.length + 1 ∧
    levenshteinDistance s1 s2 ≤ max s1.length s2.length ∧
    0 ≤ calculateStringSimilarity s1 s2 ∧ calculateStringSimilarity s1 s2 ≤ 1 ∧
    (computeLineDiff s1 s2).length ≤ (splitTrim s1).length + (splitTrim s2).length :=
  ⟨levFinalRow_length s1 s2, lev_le_max s1 s2, (css_bounds s1 s2).1,
    (css_bounds s1 s2).2, computeLineDiff_length s1 s2⟩

/-- C9: `calculateSimilarity` is commutative. -/
theorem c9_similarity_comm (a b : String) :
    calculateSimilarity a b = calculateSimilarity b a :=
  calculateSimilarity_comm a b

/-- C10: every `modify` entry produced by `computeLineDiff` has a non-empty
base string and a non-empty variant string (the JS falsiness checks on
`removePair.line.base` and `addPair.line.variant` keep empty lines from ever
being merged). -/
theorem c10_modify_nonempty (b v : String) (e : LineDiffEntry)
    (h : e ∈ computeLineDiff b v) (ht : e.type = DiffType.modify) :
    strongModify e :=
  computeLineDiff_modify_nonempty b v e h ht

/-- C10, witness at a concrete modify entry. -/
theorem c10_witness : strongModify ⟨some "abc", some "abd", DiffType.modify⟩ :=
  c10_modify_nonempty "abc" "abd" ⟨some "abc", some "abd", DiffType.modify⟩
    (by rw [computeLineDiff_abc_eval]; exact List.mem_singleton.mpr rfl) rfl

end VC
